import Mathlib

/-!
# gdwg::graph

A shallow embedding of `include/gdwg/graph.hpp`: a directed weighted multigraph whose
node registry is a `std::set` and whose edge storage is a `std::map` from source to a
`std::map` from destination to a `std::set` of weights.

Representation.
* A `std::set` is the list of its elements in iteration order, a `std::map` the list of
  its key/value pairs in iteration order.  The library keeps both strictly ascending by
  key; that ordering invariant is the predicate `graph.sorted`.
* The `std::shared_ptr` wrappers are compared through `*left < *right` only, so a stored
  pointer is represented by the value it points to.
* A container iterator is the index of the element it points to, the past-the-end
  iterator being the length of the container.  A value-initialised iterator
  (`middle()`, `inner()`) is `none`.
* A member function that can throw or mutate returns its outcome paired with the graph
  after the call, so that what a failed call leaves behind is part of the model.
-/

namespace gdwg

/-- Ways a call can end without producing its value. -/
inductive Fault
  /-- The call executed `throw std::runtime_error(...)`. -/
  | runtime_error
  /-- The call dereferenced or stepped a past-the-end, value-initialised or invalidated
  iterator. -/
  | undefined
  /-- The iteration bound of a modelled loop ran out. -/
  | fuel
deriving DecidableEq, Repr

deriving instance DecidableEq for Except

/-! ## Sorted containers -/

section containers

variable {K V : Type} [LinearOrder K]

/-- Position at which a sorted container links a new element: in front of the first
element with a greater key. -/
def sorted_insert {α : Type} (key : α → K) (a : α) : List α → List α
  | [] => [a]
  | b :: t => if key a < key b then a :: b :: t else b :: sorted_insert key a t

/-- The test `s.find(x) != s.end()` on a set. -/
def set_contains (x : K) (s : List K) : Bool := decide (x ∈ s)

/-- The call `s.insert(x)` on a set: nothing happens when an equal element is present. -/
def set_insert (x : K) (s : List K) : List K :=
  if x ∈ s then s else sorted_insert id x s

/-- The call `s.erase(x)` on a set. -/
def set_erase (x : K) (s : List K) : List K := s.filter (fun y => decide (y ≠ x))

/-- The lookup `m.find(k)`: the mapped value, or `none` for `m.end()`. -/
def map_find (k : K) : List (K × V) → Option V
  | [] => none
  | p :: t => if p.1 = k then some p.2 else map_find k t

/-- The test `m.find(k) != m.end()` on a map. -/
def map_contains (k : K) (m : List (K × V)) : Bool := (map_find k m).isSome

/-- The call `m.erase(k)` on a map. -/
def map_erase (k : K) (m : List (K × V)) : List (K × V) :=
  m.filter (fun p => decide (p.1 ≠ k))

/-- Mutation, through a reference, of the value mapped at `k`. -/
def map_modify (k : K) (f : V → V) (m : List (K × V)) : List (K × V) :=
  m.map (fun p => if p.1 = k then (p.1, f p.2) else p)

/-- The expression `m[k]` followed by the mutation `f` of the referenced value:
`operator[]` first links a default value `dflt` when `k` is absent. -/
def map_index (k : K) (f : V → V) (dflt : V) (m : List (K × V)) : List (K × V) :=
  if map_contains k m then map_modify k f m else sorted_insert Prod.fst (k, f dflt) m

/-- The value read through `m[k]` when `k` is present (a default otherwise). -/
def map_at (k : K) (dflt : V) (m : List (K × V)) : V := (map_find k m).getD dflt

/-- The call `m.insert(std::move(node_handle))`: the node is linked unless its key is
already present, in which case the handle, and the element it owns, is dropped. -/
def map_insert_node (p : K × V) (m : List (K × V)) : List (K × V) :=
  if map_contains p.1 m then m else sorted_insert Prod.fst p m

end containers

/-! ## The graph and its cursor -/

/-- The externally visible projection of an edge (`graph::value_type`). -/
structure value_type (N E : Type) where
  from_ : N
  to_ : N
  weight : E
deriving DecidableEq, Repr

/-- The private members of `graph<N, E>`. -/
structure graph (N E : Type) where
  nodes_ : List N
  edges_ : List (N × List (N × List E))
deriving DecidableEq, Repr

/-- The members `outer_iter`, `middle_iter`, `inner_iter` of `graph::iterator`.  The
outer position is an index into `edges_`, the middle one into the destination map of
the outer entry, the inner one into the weight set of the middle entry. -/
structure iterator where
  outer_iter : Nat
  middle_iter : Option Nat
  inner_iter : Option Nat
deriving DecidableEq, Repr

namespace graph

variable {N E : Type} [LinearOrder N] [LinearOrder E]

/-! ### Accessors -/

/-- `graph::is_node`. -/
def is_node (g : graph N E) (value : N) : Bool := set_contains value g.nodes_

/-- `graph::empty`. -/
def empty (g : graph N E) : Bool := g.nodes_.isEmpty

/-- `graph::nodes`. -/
def nodes (g : graph N E) : List N := g.nodes_

/-- `graph::edge_exists`: the nested scan over `edges_`. -/
def edge_exists (g : graph N E) (src dst : N) (weight : E) : Bool :=
  g.edges_.any fun src_nodes =>
    decide (src_nodes.1 = src) &&
      src_nodes.2.any fun dst_node =>
        decide (dst_node.1 = dst) && set_contains weight dst_node.2

/-- `graph::is_connected`. -/
def is_connected (g : graph N E) (src dst : N) : Except Fault Bool :=
  if !g.is_node src || !g.is_node dst then .error .runtime_error
  else
    match map_find src g.edges_ with
    | none => .ok false
    | some iter => .ok (map_contains dst iter)

/-! ### Iterator -/

/-- `graph::end`. -/
def end_ (g : graph N E) : iterator := ⟨g.edges_.length, none, none⟩

/-- `graph::begin`.  `srcmap->second` and `dstmap->second` are read before the test
`edges_.empty()`, so they fault when `srcmap` or `dstmap` is past the end. -/
def begin (g : graph N E) : Except Fault iterator :=
  match g.edges_[0]? with
  | none => .error .undefined
  | some srcmap =>
    match srcmap.2[0]? with
    | none => .error .undefined
    | some _ =>
      let inner_iter := if g.edges_.isEmpty then none else some 0
      .ok ⟨0, some 0, inner_iter⟩

/-- The entry `*outer_iter`. -/
def outer_at (g : graph N E) (it : iterator) : Except Fault (N × List (N × List E)) :=
  match g.edges_[it.outer_iter]? with
  | some s => .ok s
  | none => .error .undefined

/-- The entry `*middle_iter`. -/
def middle_at (g : graph N E) (it : iterator) : Except Fault (N × List E) :=
  match g.outer_at it, it.middle_iter with
  | .ok s, some j =>
    match s.2[j]? with
    | some d => .ok d
    | none => .error .undefined
  | .ok _, none => .error .undefined
  | .error e, _ => .error e

/-- `iterator::operator*`. -/
def deref (g : graph N E) (it : iterator) : Except Fault (value_type N E) :=
  match g.outer_at it, g.middle_at it, it.inner_iter with
  | .ok s, .ok d, some k =>
    match d.2[k]? with
    | some w => .ok ⟨s.1, d.1, w⟩
    | none => .error .undefined
  | .ok _, .ok _, none => .error .undefined
  | .ok _, .error e, _ => .error e
  | .error e, _, _ => .error e

/-- `iterator::operator++` (both forms leave the same position in the iterator). -/
def inc (g : graph N E) (it : iterator) : Except Fault iterator :=
  match g.outer_at it, g.middle_at it, it.middle_iter, it.inner_iter with
  | .ok s, .ok d, some j, some k =>
    let set_end := d.2.length
    if k ≠ set_end ∧ k + 1 ≠ set_end then
      .ok ⟨it.outer_iter, some j, some (k + 1)⟩
    else if j + 1 ≠ s.2.length then
      .ok ⟨it.outer_iter, some (j + 1), some 0⟩
    else if it.outer_iter + 1 ≠ g.edges_.length then
      match g.outer_at ⟨it.outer_iter + 1, none, none⟩ with
      | .ok s1 =>
        match s1.2[0]? with
        | some _ => .ok ⟨it.outer_iter + 1, some 0, some 0⟩
        | none => .error .undefined
      | .error e => .error e
    else
      .ok ⟨it.outer_iter + 1, none, none⟩
  | .ok _, .ok _, _, _ => .error .undefined
  | .ok _, .error e, _, _ => .error e
  | .error e, _, _, _ => .error e

/-- The number of weights held by the adjacency structure. -/
def edge_count (g : graph N E) : Nat :=
  (g.edges_.map fun s => (s.2.map fun d => d.2.length).sum).sum

/-- The loop of `graph::find`, from the position `graph_iter`, with an iteration bound. -/
def find_loop (g : graph N E) (src dst : N) (weight : E) : Nat → iterator → Except Fault iterator
  | 0, _ => .error .fuel
  | n + 1, graph_iter =>
    if graph_iter ≠ g.end_ then
      match g.deref graph_iter with
      | .ok v =>
        if v.from_ = src ∧ v.to_ = dst ∧ v.weight = weight then .ok graph_iter
        else
          match g.inc graph_iter with
          | .ok next => find_loop g src dst weight n next
          | .error e => .error e
      | .error e => .error e
    else .ok g.end_

/-- `graph::find`. -/
def find (g : graph N E) (src dst : N) (weight : E) : Except Fault iterator :=
  match g.begin with
  | .ok graph_iter => find_loop g src dst weight (g.edge_count + 1) graph_iter
  | .error e => .error e

/-- The position reached from `it` by `n` increments. -/
def advance (g : graph N E) (it : iterator) : Nat → Except Fault iterator
  | 0 => .ok it
  | n + 1 =>
    match advance g it n with
    | .ok c => g.inc c
    | .error e => .error e

/-! ### Modifiers -/

/-- `graph::insert_node`. -/
def insert_node (g : graph N E) (value : N) : Bool × graph N E :=
  if !g.is_node value then (true, { g with nodes_ := set_insert value g.nodes_ })
  else (false, g)

/-- `graph::insert_edge`. -/
def insert_edge (g : graph N E) (src dst : N) (weight : E) : Except Fault Bool × graph N E :=
  if !g.is_node src || !g.is_node dst then (.error .runtime_error, g)
  else if !g.edge_exists src dst weight then
    (.ok true,
      { g with edges_ := map_index src (map_index dst (set_insert weight) []) [] g.edges_ })
  else (.ok false, g)

/-- `graph::erase_node`. -/
def erase_node (g : graph N E) (value : N) : Bool × graph N E :=
  if !g.is_node value then (false, g)
  else
    let nodes1 := set_erase value g.nodes_
    let edges1 := map_erase value g.edges_
    let edges2 := nodes1.foldl
      (fun es n => if map_contains n es then map_modify n (map_erase value) es else es) edges1
    (true, ⟨nodes1, edges2⟩)

/-- `graph::erase_edge(src, dst, weight)`.  Every `edges_[src_n]` and
`edges_[src_n][dst_n]` of this function is evaluated after `is_connected` has answered
true and before the entry is erased, so `operator[]` links nothing here. -/
def erase_edge (g : graph N E) (src dst : N) (weight : E) : Except Fault Bool × graph N E :=
  if !g.is_node src || !g.is_node dst then (.error .runtime_error, g)
  else
    match g.is_connected src dst with
    | .error e => (.error e, g)
    | .ok false => (.ok false, g)
    | .ok true =>
      match g.find src dst weight with
      | .error e => (.error e, g)
      | .ok iter =>
        if iter ≠ g.end_ then
          if (map_at dst [] (map_at src [] g.edges_)).length > 1 then
            (.ok true,
              { g with edges_ := map_index src (map_index dst (set_erase weight) []) [] g.edges_ })
          else
            let g1 : graph N E :=
              if (map_at dst [] (map_at src [] g.edges_)).length = 1 then
                let edges1 := map_index src (map_index dst (set_erase weight) []) [] g.edges_
                { g with edges_ := map_index src (map_erase dst) [] edges1 }
              else g
            let g2 : graph N E :=
              if (map_at src [] g1.edges_).length = 0 then (g1.erase_node src).2 else g1
            (.ok true, g2)
        else (.ok false, g)

/-- The inner range-for of `graph::replace_node`,
`for (auto& inner_key : outer_key.second)`, over the destination map of the entry the outer
loop has copied.  An element whose key is not `old_data` is stepped over.  At the element
whose key is `old_data` the body calls `outer_key.second.extract(old_d)`, which unlinks the
very element the loop's iterator stands on, and the loop then increments that iterator: the
step is taken on an iterator that no longer refers to an element of the map. -/
def replace_inner_loop (old_data : N) : List (N × List E) → Except Fault Unit
  | [] => .ok ()
  | inner_key :: rest =>
    if inner_key.1 = old_data then .error .undefined else replace_inner_loop old_data rest

/-- `graph::replace_node`.  The node handle taken out of `nodes_` is re-linked under the
new value.  The range-for `for (auto outer_key : edges_)` takes each entry by value, so the
inner loop works on the temporary `outer_key.second`, which is discarded: it relabels nothing
in `edges_`, and it is undefined as soon as it meets a destination key equal to `old_data`
(`replace_inner_loop`).  `edges_` itself is touched by the `extract`/`insert` on the outer key
alone.  The body ends in `return true`, so only the first entry of `edges_` is ever inspected.
The graph paired with the fault of the inner loop is the one the remaining statements of the
body leave when execution goes on past the invalid step. -/
def replace_node (g : graph N E) (old_data new_data : N) : Except Fault Bool × graph N E :=
  if g.is_node new_data then (.ok false, g)
  else if !g.is_node old_data then (.error .runtime_error, g)
  else
    let nodes1 := set_insert new_data (set_erase old_data g.nodes_)
    match g.edges_ with
    | [] => (.ok true, ⟨nodes1, []⟩)
    | outer_key :: _ =>
      let edges1 :=
        if outer_key.1 = old_data then
          map_insert_node (new_data, map_at old_data [] g.edges_) (map_erase old_data g.edges_)
        else g.edges_
      match replace_inner_loop old_data outer_key.2 with
      | .error f => (.error f, ⟨nodes1, edges1⟩)
      | .ok _ => (.ok true, ⟨nodes1, edges1⟩)

/-- `graph::clear`. -/
def clear (_g : graph N E) : graph N E := ⟨[], []⟩

/-! ### Vocabulary of the specification -/

/-- The edge `(src, dst, weight)` is stored in the adjacency structure. -/
def stored (g : graph N E) (src dst : N) (weight : E) : Prop :=
  ∃ s ∈ g.edges_, s.1 = src ∧ ∃ d ∈ s.2, d.1 = dst ∧ weight ∈ d.2

instance (g : graph N E) (src dst : N) (weight : E) : Decidable (g.stored src dst weight) := by
  unfold stored; infer_instance

/-- The edges one destination entry of the source `a` stands for. -/
def cell (a : N) (d : N × List E) : List (value_type N E) :=
  d.2.map fun w => ⟨a, d.1, w⟩

/-- The edges one source entry stands for. -/
def row (s : N × List (N × List E)) : List (value_type N E) :=
  s.2.flatMap (cell s.1)

/-- The stored edges, source by source, destination by destination, weight by weight. -/
def edge_list (g : graph N E) : List (value_type N E) :=
  g.edges_.flatMap row

/-- The iterator points at a weight that is really there. -/
def valid (g : graph N E) (it : iterator) : Prop :=
  ∃ j k s d, it.middle_iter = some j ∧ it.inner_iter = some k ∧
    g.edges_[it.outer_iter]? = some s ∧ s.2[j]? = some d ∧ k < d.2.length

/-- The edges from the position `(i, j, k)` on, that position included. -/
def rest (g : graph N E) (i j k : Nat) : List (value_type N E) :=
  match g.edges_[i]? with
  | none => []
  | some s =>
    match s.2[j]? with
    | none => []
    | some d =>
      (cell s.1 (d.1, d.2.drop k) ++ (s.2.drop (j + 1)).flatMap (cell s.1)) ++
        (g.edges_.drop (i + 1)).flatMap row

/-- The edges from the iterator on, the edge it points at included. -/
def rest_of (g : graph N E) (it : iterator) : List (value_type N E) :=
  match it.middle_iter, it.inner_iter with
  | some j, some k => rest g it.outer_iter j k
  | _, _ => []

/-- The ordering invariant the standard containers maintain: every level is strictly
ascending by key. -/
def sorted (g : graph N E) : Prop :=
  g.nodes_.Pairwise (· < ·) ∧ (g.edges_.map Prod.fst).Pairwise (· < ·) ∧
    ∀ s ∈ g.edges_, (s.2.map Prod.fst).Pairwise (· < ·) ∧ ∀ d ∈ s.2, d.2.Pairwise (· < ·)

instance (g : graph N E) : Decidable g.sorted := by
  unfold sorted; infer_instance

/-- Invariant 2: no source with zero destinations, no destination with zero weights. -/
def no_empty_level (g : graph N E) : Prop :=
  ∀ s ∈ g.edges_, s.2 ≠ [] ∧ ∀ d ∈ s.2, d.2 ≠ []

instance (g : graph N E) : Decidable g.no_empty_level := by
  unfold no_empty_level; infer_instance

/-- Invariant 1: every source key and every destination key is a registered node. -/
def keys_registered (g : graph N E) : Prop :=
  ∀ s ∈ g.edges_, g.is_node s.1 = true ∧ ∀ d ∈ s.2, g.is_node d.1 = true

instance (g : graph N E) : Decidable g.keys_registered := by
  unfold keys_registered; infer_instance

/-- Strict lexicographic order on `(from, to, weight)`. -/
def edge_lt (a b : value_type N E) : Prop :=
  a.from_ < b.from_ ∨ (a.from_ = b.from_ ∧ (a.to_ < b.to_ ∨ (a.to_ = b.to_ ∧ a.weight < b.weight)))

end graph

/-! ## The graph of the test suite -/

/-- Nodes 1, 3, 4, 2 and edges (1,4,3), (2,4,2), (1,1,2), as the tests build it. -/
def test_graph : graph Int Int :=
  ((((graph.insert_node (graph.insert_node (graph.insert_node (graph.insert_node
    (⟨[], []⟩ : graph Int Int) 1).2 3).2 4).2 2).2.insert_edge 1 4 3).2.insert_edge 2 4 2).2.insert_edge
      1 1 2).2

end gdwg


namespace gdwg

/-- The empty graph, as the default constructor leaves it. -/
def empty_graph : graph Int Int := ⟨[], []⟩

/-- Nodes 1, 2 and the edge (1,2,5), built through the public operations. -/
def single_edge_graph : graph Int Int :=
  ((graph.insert_node (graph.insert_node empty_graph 1).2 2).2.insert_edge 1 2 5).2

/-- Nodes 1, 2 and the loops (1,1,0), (2,2,0), built through the public operations. -/
def two_loops_graph : graph Int Int :=
  (((graph.insert_node (graph.insert_node empty_graph 1).2 2).2.insert_edge 1 1 0).2.insert_edge
    2 2 0).2

/-- Nodes 1, 2 and the edges (1,2,0), (2,1,0), built through the public operations. -/
def two_cycle_graph : graph Int Int :=
  (((graph.insert_node (graph.insert_node empty_graph 1).2 2).2.insert_edge 1 2 0).2.insert_edge
    2 1 0).2

/-- Nodes 1, 2 and the edges (1,1,0), (2,1,0), built through the public operations. -/
def fan_in_graph : graph Int Int :=
  (((graph.insert_node (graph.insert_node empty_graph 1).2 2).2.insert_edge 1 1 0).2.insert_edge
    2 1 0).2

end gdwg

/-! ## Backward steps, comparison, erasure through iterators, construction -/

namespace gdwg

namespace graph

variable {N E : Type} [LinearOrder N] [LinearOrder E]

/-- `graph::merge_replace_node`: the guard is the whole body. -/
def merge_replace_node (g : graph N E) (old_data new_data : N) : Except Fault Unit × graph N E :=
  if g.is_node old_data || g.is_node new_data then (.error .runtime_error, g)
  else (.ok (), g)

/-- The `while` loop of `graph::operator==`, with an iteration bound; `flag` is the local
of that name. -/
def equal_loop (g other : graph N E) : Nat → iterator → iterator → Bool → Except Fault Bool
  | 0, _, _, _ => .error .fuel
  | n + 1, iter1, iter2, flag =>
    if iter1 ≠ g.end_ ∨ iter2 ≠ other.end_ then
      match g.deref iter1, other.deref iter2 with
      | .ok a, .ok b =>
        if a.from_ = b.from_ ∧ a.to_ = b.to_ ∧ a.weight = b.weight then
          match g.inc iter1, other.inc iter2 with
          | .ok next1, .ok next2 => equal_loop g other n next1 next2 true
          | .ok _, .error e => .error e
          | .error e, _ => .error e
        else .ok false
      | .ok _, .error e => .error e
      | .error e, _ => .error e
    else .ok flag

/-- `graph::operator==`. -/
def operator_eq (g other : graph N E) : Except Fault Bool :=
  if g.nodes ≠ other.nodes then .ok false
  else
    match g.begin, other.begin with
    | .ok iter1, .ok iter2 =>
      equal_loop g other (g.edge_count + other.edge_count + 1) iter1 iter2 false
    | .ok _, .error e => .error e
    | .error e, _ => .error e

/-- Index of the key `k` in a map. -/
def key_index {K V : Type} [LinearOrder K] (k : K) : List (K × V) → Option Nat
  | [] => none
  | p :: t => if p.1 = k then some 0 else (key_index k t).map (· + 1)

/-- Index of the element `x` in a set. -/
def elem_index {K : Type} [LinearOrder K] (x : K) : List K → Option Nat
  | [] => none
  | y :: t => if y = x then some 0 else (elem_index x t).map (· + 1)

/-- The iterator of `g` on the edge `v`, when `v` is stored. -/
def locate (g : graph N E) (v : value_type N E) : Option iterator :=
  match key_index v.from_ g.edges_ with
  | none => none
  | some i =>
    match key_index v.to_ (map_at v.from_ [] g.edges_) with
    | none => none
    | some j =>
      match elem_index v.weight (map_at v.to_ [] (map_at v.from_ [] g.edges_)) with
      | none => none
      | some k => some ⟨i, some j, some k⟩

/-- An iterator of `g` carried over a mutation of `g` into `after`.  The containers are
node-based: an iterator of the graph before stays on the element it pointed at, whatever
its new index, as long as that element is still linked, and `end()` stays `end()`.  An
iterator whose element has been unlinked denotes nothing any more; that outcome is
`.error .undefined`. -/
def carry_over (g after : graph N E) (it : iterator) : Except Fault iterator :=
  if it = g.end_ then .ok after.end_
  else
    match g.deref it with
    | .ok v =>
      match after.locate v with
      | some moved => .ok moved
      | none => .error .undefined
    | .error e => .error e

/-- `graph::erase_edge(iterator i)`. -/
def erase_edge_iter (g : graph N E) (i : iterator) : Except Fault iterator × graph N E :=
  if i = g.end_ then (.ok g.end_, g)
  else
    match g.inc i with
    | .error e => (.error e, g)
    | .ok res =>
      match g.deref i with
      | .error e => (.error e, g)
      | .ok v =>
        match g.erase_edge v.from_ v.to_ v.weight with
        | (.ok true, g1) => (carry_over g g1 res, g1)
        | (.ok false, g1) => (.ok g1.end_, g1)
        | (.error e, g1) => (.error e, g1)

/-- The `while` loop of `graph::erase_edge(iterator i, iterator s)`, with an iteration
bound; `s` is carried over every erasure like any other outstanding iterator. -/
def erase_edge_loop : Nat → graph N E → iterator → iterator → Except Fault iterator × graph N E
  | 0, g, _, _ => (.error .fuel, g)
  | n + 1, g, res, s =>
    if res ≠ s then
      match g.erase_edge_iter res with
      | (.ok res1, g1) =>
        match carry_over g g1 s with
        | .ok s1 => erase_edge_loop n g1 res1 s1
        | .error e => (.error e, g1)
      | (.error e, g1) => (.error e, g1)
    else (.ok res, g)

/-- `graph::erase_edge(iterator i, iterator s)`. -/
def erase_edge_range (g : graph N E) (i s : iterator) : Except Fault iterator × graph N E :=
  erase_edge_loop (g.edge_count + 1) g i s

/-- `graph::graph(std::initializer_list<N>)` and `graph::graph(InputIt, InputIt)`. -/
def of_list (il : List N) : graph N E :=
  il.foldl (fun g value => (g.insert_node value).2) ⟨[], []⟩

/-- `graph::graph(graph const&)`, which `operator=(graph const&)` swaps in. -/
def copy (other : graph N E) : graph N E :=
  let g0 : graph N E := other.nodes.foldl (fun g node => (g.insert_node node).2) ⟨[], []⟩
  other.edges_.foldl (fun g src_nodes =>
    src_nodes.2.foldl (fun g dst_node =>
      dst_node.2.foldl (fun g weight =>
        { g with edges_ :=
            map_index src_nodes.1 (map_index dst_node.1 (set_insert weight) []) [] g.edges_ })
        g) g) g0

/-- The graphs a program can hold: what a constructor builds and what the modifiers make
of such a graph.  A call that throws leaves its graph as it was, which is the graph
the modifier returns in that case.  Moving a graph hands its members over unchanged and
leaves the empty graph behind, so it adds no graph to these. -/
inductive reachable : graph N E → Prop
  | default : reachable ⟨[], []⟩
  | of_list (il : List N) : reachable (of_list il)
  | copy (g : graph N E) : reachable g → reachable g.copy
  | insert_node (g : graph N E) (value : N) : reachable g → reachable (g.insert_node value).2
  | insert_edge (g : graph N E) (src dst : N) (weight : E) :
      reachable g → reachable (g.insert_edge src dst weight).2
  | replace_node (g : graph N E) (old_data new_data : N) :
      reachable g → reachable (g.replace_node old_data new_data).2
  | erase_node (g : graph N E) (value : N) : reachable g → reachable (g.erase_node value).2
  | erase_edge (g : graph N E) (src dst : N) (weight : E) :
      reachable g → reachable (g.erase_edge src dst weight).2
  | erase_edge_iter (g : graph N E) (i : iterator) :
      reachable g → reachable (g.erase_edge_iter i).2
  | erase_edge_range (g : graph N E) (i s : iterator) :
      reachable g → reachable (g.erase_edge_range i s).2
  | clear (g : graph N E) : reachable g → reachable g.clear
  | merge_replace_node (g : graph N E) (old_data new_data : N) :
      reachable g → reachable (g.merge_replace_node old_data new_data).2

end graph

end gdwg

/-! ## Queries on the adjacency structure and the textual dump -/

namespace gdwg

/-- One line of the text `operator<<` writes: the opening line of a node (the node, then
space, opening parenthesis, newline), the line of one edge (two spaces, the destination,
space, bar, space, the weight, newline), and the closing line (closing parenthesis,
newline). -/
inductive line (N E : Type) where
  | opening (node : N)
  | entry (dst : N) (weight : E)
  | closing
deriving DecidableEq, Repr

namespace graph

variable {N E : Type} [LinearOrder N] [LinearOrder E]

/-- `graph::weights`. -/
def weights (g : graph N E) (src dst : N) : Except Fault (List E) :=
  if !g.is_node src || !g.is_node dst then .error .runtime_error
  else
    match map_find src g.edges_ with
    | none => .ok []
    | some outer_key =>
      match map_find dst outer_key with
      | none => .ok []
      | some inner_key => .ok inner_key

/-- `graph::connections`. -/
def connections (g : graph N E) (src : N) : Except Fault (List N) :=
  if !g.is_node src then .error .runtime_error
  else
    match map_find src g.edges_ with
    | none => .ok []
    | some outer_key => .ok (outer_key.map Prod.fst)

/-- The two inner loops of `operator<<`: the edge lines of `src_node` for the listed
destinations. -/
def print_connections (g : graph N E) (src_node : N) : List N → Except Fault (List (line N E))
  | [] => .ok []
  | dst_node :: more =>
    match g.weights src_node dst_node with
    | .error e => .error e
    | .ok ws =>
      match print_connections g src_node more with
      | .error e => .error e
      | .ok lines => .ok (ws.map (line.entry dst_node) ++ lines)

/-- The body of the outer loop of `operator<<` for one node: the closing line is written
inside the branch for a node that has connections only. -/
def print_node (g : graph N E) (src_node : N) : Except Fault (List (line N E)) :=
  match g.connections src_node with
  | .error e => .error e
  | .ok dsts =>
    if !dsts.isEmpty then
      match g.print_connections src_node dsts with
      | .error e => .error e
      | .ok lines => .ok (line.opening src_node :: (lines ++ [line.closing]))
    else .ok [line.opening src_node]

/-- The outer loop of `operator<<` over the listed nodes. -/
def print_nodes (g : graph N E) : List N → Except Fault (List (line N E))
  | [] => .ok []
  | src_node :: more =>
    match g.print_node src_node with
    | .error e => .error e
    | .ok lines =>
      match print_nodes g more with
      | .error e => .error e
      | .ok others => .ok (lines ++ others)

/-- `operator<<(std::ostream&, graph const&)`: the loop over `nodes()`, then one closing
line. -/
def operator_out (g : graph N E) : Except Fault (List (line N E)) :=
  match g.print_nodes g.nodes with
  | .error e => .error e
  | .ok lines => .ok (lines ++ [line.closing])

/-- A weight set as the operations leave it: strictly ascending and not empty. -/
def set_ok (ws : List E) : Prop := ws.Pairwise (· < ·) ∧ ws ≠ []

/-- A map as the library keeps it, strictly ascending by key, whose mapped values all
satisfy `P`. -/
def map_ok {K V : Type} [LinearOrder K] (P : V → Prop) (m : List (K × V)) : Prop :=
  (m.map Prod.fst).Pairwise (· < ·) ∧ ∀ p ∈ m, P p.2

/-- The registry and every level of the adjacency structure are strictly ascending, and no
weight set is empty. -/
def well_kept (g : graph N E) : Prop :=
  g.nodes_.Pairwise (· < ·) ∧ map_ok (map_ok (set_ok (E := E))) g.edges_

/-- The second half of invariant 2: no destination with zero weights. -/
def no_empty_weights (g : graph N E) : Prop :=
  ∀ s ∈ g.edges_, ∀ d ∈ s.2, d.2 ≠ []

instance (g : graph N E) : Decidable g.no_empty_weights := by
  unfold no_empty_weights; infer_instance

end graph

end gdwg

/-! ## Further graphs built through the public operations -/

namespace gdwg

/-- The graph of the test of `erase_edge`: nodes 1, 4, 2 and edges (1,4,3), (2,4,2),
(1,4,2). -/
def erase_test_graph : graph Int Int :=
  ((((graph.of_list [1, 4, 2] : graph Int Int).insert_edge 1 4 3).2.insert_edge 2 4 2).2.insert_edge
    1 4 2).2

/-- Nodes 1, 2, 3 with edges (1,3,0), (2,2,0), after `replace_node(2, 4)`: the node is renamed
to 4 while 2 stays behind as a source key. -/
def stale_source_graph : graph Int Int :=
  ((((graph.of_list [1, 2, 3] : graph Int Int).insert_edge 1 3 0).2.insert_edge 2 2 0).2.replace_node
    2 4).2

/-- Nodes 1, 2, 3 with edges (1,3,0), (2,1,0), after `erase_node(3)`: the source 1 stays behind
with no destination. -/
def empty_source_graph : graph Int Int :=
  ((((graph.of_list [1, 2, 3] : graph Int Int).insert_edge 1 3 0).2.insert_edge 2 1 0).2.erase_node
    3).2

end gdwg

/-! ## Theorems -/

namespace gdwg

namespace graph

variable {N E : Type} [LinearOrder N] [LinearOrder E]

set_option linter.unusedSectionVars false

/-! ### Containers -/

section container_lemmas

variable {K V : Type} [LinearOrder K]

theorem mem_sorted_insert {α : Type} (key : α → K) (a x : α) (l : List α) :
    x ∈ sorted_insert key a l ↔ x = a ∨ x ∈ l := by
  induction l with
  | nil => simp [sorted_insert]
  | cons b t ih =>
    unfold sorted_insert
    split
    · simp
    · simp only [List.mem_cons, ih]
      tauto

theorem mem_set_insert (x y : K) (s : List K) : y ∈ set_insert x s ↔ y ∈ s ∨ y = x := by
  unfold set_insert
  split
  · constructor
    · exact Or.inl
    · rintro (h | h)
      · exact h
      · subst h; assumption
  · rw [mem_sorted_insert]; tauto

theorem mem_set_erase (x y : K) (s : List K) : y ∈ set_erase x s ↔ y ∈ s ∧ y ≠ x := by
  simp [set_erase]

theorem map_find_eq_none (k : K) (m : List (K × V)) :
    map_find k m = none ↔ ∀ p ∈ m, p.1 ≠ k := by
  induction m with
  | nil => simp [map_find]
  | cons q t ih =>
    unfold map_find
    split
    · rename_i h; simp [h]
    · rename_i h; simp [ih, h]

theorem map_find_mem (k : K) (m : List (K × V)) (v : V) (h : map_find k m = some v) :
    (k, v) ∈ m := by
  induction m with
  | nil => simp [map_find] at h
  | cons q t ih =>
    unfold map_find at h
    split at h
    · rename_i hq
      simp only [Option.some.injEq] at h
      obtain ⟨q1, q2⟩ := q
      simp only at hq h
      subst hq h
      exact List.mem_cons_self _ _
    · exact List.mem_cons_of_mem _ (ih h)

theorem map_contains_iff (k : K) (m : List (K × V)) :
    map_contains k m = true ↔ ∃ p ∈ m, p.1 = k := by
  unfold map_contains
  rw [Option.isSome_iff_ne_none, Ne, map_find_eq_none]
  push_neg
  rfl

/-- In a map with distinct keys the lookup returns the one value stored under the key. -/
theorem map_find_of_mem (k : K) (v : V) (m : List (K × V))
    (hs : (m.map Prod.fst).Pairwise (· < ·)) (h : (k, v) ∈ m) : map_find k m = some v := by
  induction m with
  | nil => simp at h
  | cons q t ih =>
    simp only [List.map_cons, List.pairwise_cons] at hs
    rcases List.mem_cons.1 h with h | h
    · subst h; simp [map_find]
    · have hlt : q.1 < k := hs.1 k (List.mem_map.2 ⟨(k, v), h, rfl⟩)
      unfold map_find
      rw [if_neg (ne_of_lt hlt)]
      exact ih hs.2 h

/-- What `m[k]` followed by the mutation `f` leaves in the map, seen through a property `Q`
of the mapped values. -/
theorem exists_map_index (k a : K) (f : V → V) (dflt : V) (m : List (K × V)) (Q : V → Prop) :
    (∃ p ∈ map_index k f dflt m, p.1 = a ∧ Q p.2) ↔
      (a ≠ k ∧ ∃ p ∈ m, p.1 = a ∧ Q p.2) ∨
        (a = k ∧ ((∃ p ∈ m, p.1 = k ∧ Q (f p.2)) ∨ ((∀ p ∈ m, p.1 ≠ k) ∧ Q (f dflt)))) := by
  unfold map_index
  by_cases hc : map_contains k m = true
  · rw [if_pos hc]
    have hex := (map_contains_iff k m).1 hc
    simp only [map_modify, List.mem_map]
    constructor
    · rintro ⟨p, ⟨q, hq, rfl⟩, h1, h2⟩
      by_cases hqk : q.1 = k
      · rw [if_pos hqk] at h1 h2
        simp only at h1 h2
        exact Or.inr ⟨by rw [← h1, hqk], Or.inl ⟨q, hq, hqk, h2⟩⟩
      · rw [if_neg hqk] at h1 h2
        exact Or.inl ⟨by rw [← h1]; exact hqk, q, hq, h1, h2⟩
    · rintro (⟨hak, q, hq, h1, h2⟩ | ⟨hak, (⟨q, hq, h1, h2⟩ | ⟨hno, _⟩)⟩)
      · refine ⟨q, ⟨q, hq, ?_⟩, h1, h2⟩
        rw [if_neg (by rw [h1]; exact hak)]
      · refine ⟨(q.1, f q.2), ⟨q, hq, ?_⟩, by rw [hak]; exact h1, h2⟩
        rw [if_pos h1]
      · obtain ⟨q, hq, hqk⟩ := hex
        exact absurd hqk (hno q hq)
  · rw [if_neg hc]
    have hno : ∀ p ∈ m, p.1 ≠ k := by
      intro p hp hpk
      exact hc ((map_contains_iff k m).2 ⟨p, hp, hpk⟩)
    simp only [mem_sorted_insert]
    constructor
    · rintro ⟨p, (rfl | hp), h1, h2⟩
      · exact Or.inr ⟨h1.symm, Or.inr ⟨hno, h2⟩⟩
      · exact Or.inl ⟨by rw [← h1]; exact hno p hp, p, hp, h1, h2⟩
    · rintro (⟨_, q, hq, h1, h2⟩ | ⟨hak, (⟨q, hq, h1, _⟩ | ⟨_, h2⟩)⟩)
      · exact ⟨q, Or.inr hq, h1, h2⟩
      · exact absurd h1 (hno q hq)
      · exact ⟨(k, f dflt), Or.inl rfl, hak.symm, h2⟩

/-- When the mutation adds `R` to what `Q` sees, so does `m[k]` followed by the mutation. -/
theorem exists_map_index_add (k a : K) (f : V → V) (dflt : V) (m : List (K × V)) (Q : V → Prop)
    (R : Prop) (hf : ∀ v, Q (f v) ↔ Q v ∨ R) (hd : ¬ Q dflt) :
    (∃ p ∈ map_index k f dflt m, p.1 = a ∧ Q p.2) ↔ (∃ p ∈ m, p.1 = a ∧ Q p.2) ∨ (a = k ∧ R) := by
  rw [exists_map_index]
  constructor
  · rintro (⟨_, h⟩ | ⟨hak, (⟨q, hq, h1, h2⟩ | ⟨_, h2⟩)⟩)
    · exact Or.inl h
    · rcases (hf _).1 h2 with h | h
      · exact Or.inl ⟨q, hq, by rw [hak]; exact h1, h⟩
      · exact Or.inr ⟨hak, h⟩
    · rcases (hf _).1 h2 with h | h
      · exact absurd h hd
      · exact Or.inr ⟨hak, h⟩
  · rintro (⟨q, hq, h1, h2⟩ | ⟨hak, hR⟩)
    · by_cases hak : a = k
      · exact Or.inr ⟨hak, Or.inl ⟨q, hq, by rw [h1]; exact hak, (hf _).2 (Or.inl h2)⟩⟩
      · exact Or.inl ⟨hak, q, hq, h1, h2⟩
    · by_cases hex : ∃ p ∈ m, p.1 = k
      · obtain ⟨q, hq, hqk⟩ := hex
        exact Or.inr ⟨hak, Or.inl ⟨q, hq, hqk, (hf _).2 (Or.inr hR)⟩⟩
      · push_neg at hex
        exact Or.inr ⟨hak, Or.inr ⟨hex, (hf _).2 (Or.inr hR)⟩⟩

/-- When the mutation removes `R` from what `Q` sees, so does `m[k]` followed by the
mutation. -/
theorem exists_map_index_remove (k a : K) (f : V → V) (dflt : V) (m : List (K × V))
    (Q : V → Prop) (R : Prop) (hf : ∀ v, Q (f v) ↔ Q v ∧ ¬ R) (hd : ¬ Q dflt) :
    (∃ p ∈ map_index k f dflt m, p.1 = a ∧ Q p.2) ↔
      (∃ p ∈ m, p.1 = a ∧ Q p.2 ∧ ¬ (a = k ∧ R)) := by
  rw [exists_map_index]
  constructor
  · rintro (⟨hak, q, hq, h1, h2⟩ | ⟨hak, (⟨q, hq, h1, h2⟩ | ⟨_, h2⟩)⟩)
    · exact ⟨q, hq, h1, h2, fun h => hak h.1⟩
    · exact ⟨q, hq, by rw [hak]; exact h1, ((hf _).1 h2).1, fun h => ((hf _).1 h2).2 h.2⟩
    · exact absurd ((hf _).1 h2).1 hd
  · rintro ⟨q, hq, h1, h2, h3⟩
    by_cases hak : a = k
    · exact Or.inr ⟨hak, Or.inl ⟨q, hq, by rw [h1]; exact hak,
        (hf _).2 ⟨h2, fun hR => h3 ⟨hak, hR⟩⟩⟩⟩
    · exact Or.inl ⟨hak, q, hq, h1, h2⟩

end container_lemmas

/-! ### Traversal -/

theorem valid_ne_end (g : graph N E) (it : iterator) (h : g.valid it) : it ≠ g.end_ := by
  obtain ⟨j, k, s, d, hj, _, _, _, _⟩ := h
  intro he
  rw [he] at hj
  simp [end_] at hj

theorem drop_one_of_head {α : Type} (l : List α) (a : α) (h : l[0]? = some a) :
    l = a :: l.drop 1 := by
  cases l with
  | nil => simp at h
  | cons b t => simp at h; simp [h]

/-- One step of the traversal from a valid position: the iterator dereferences to the head of
what is left, and `operator++` moves it to a valid position for the tail, or to `end()` when
nothing is left. -/
theorem step_valid (g : graph N E) (hne : g.no_empty_level) (it : iterator) (h : g.valid it) :
    ∃ v t nx, g.rest_of it = v :: t ∧ g.deref it = .ok v ∧ g.inc it = .ok nx ∧
      ((g.valid nx ∧ g.rest_of nx = t) ∨ (nx = g.end_ ∧ t = [])) := by
  obtain ⟨i, mi, ii⟩ := it
  obtain ⟨j, k, s, d, hj, hk, hs, hd, hlt⟩ := h
  simp only at hj hk hs
  subst hj hk
  have hdropk : d.2.drop k = d.2[k] :: d.2.drop (k + 1) := List.drop_eq_getElem_cons hlt
  have hwk : d.2[k]? = some d.2[k] := List.getElem?_eq_getElem hlt
  have hjlt : j < s.2.length := by
    rcases List.getElem?_eq_some.1 hd with ⟨h1, _⟩; exact h1
  have hilt : i < g.edges_.length := by
    rcases List.getElem?_eq_some.1 hs with ⟨h1, _⟩; exact h1
  have hrest : g.rest_of ⟨i, some j, some k⟩ =
      (⟨s.1, d.1, d.2[k]⟩ : value_type N E) ::
        ((cell s.1 (d.1, d.2.drop (k + 1)) ++ (s.2.drop (j + 1)).flatMap (cell s.1)) ++
          (g.edges_.drop (i + 1)).flatMap row) := by
    simp only [rest_of, rest, hs, hd, hdropk, cell, List.map_cons, List.cons_append]
  have hderef : g.deref ⟨i, some j, some k⟩ = .ok ⟨s.1, d.1, d.2[k]⟩ := by
    simp [deref, outer_at, middle_at, hs, hd, hwk]
  by_cases h1 : k + 1 < d.2.length
  · -- the next weight of the same destination
    refine ⟨_, _, ⟨i, some j, some (k + 1)⟩, hrest, hderef, ?_,
      Or.inl ⟨⟨j, k + 1, s, d, rfl, rfl, hs, hd, h1⟩, ?_⟩⟩
    · have : k ≠ d.2.length ∧ k + 1 ≠ d.2.length := ⟨by omega, by omega⟩
      simp [inc, outer_at, middle_at, hs, hd, this]
    · simp [rest_of, rest, hs, hd]
  · have hk1 : k + 1 = d.2.length := by omega
    have hdrop0 : d.2.drop (k + 1) = [] := List.drop_eq_nil_of_le (by omega)
    by_cases h2 : j + 1 < s.2.length
    · -- the first weight of the next destination
      have hd1 : s.2[j + 1]? = some s.2[j + 1] := List.getElem?_eq_getElem h2
      have hmem : s.2[j + 1] ∈ s.2 := List.getElem?_mem hd1
      have hsmem : s ∈ g.edges_ := List.getElem?_mem hs
      have hpos : 0 < (s.2[j + 1]).2.length :=
        List.length_pos.2 ((hne s hsmem).2 _ hmem)
      refine ⟨_, _, ⟨i, some (j + 1), some 0⟩, hrest, hderef, ?_,
        Or.inl ⟨⟨j + 1, 0, s, s.2[j + 1], rfl, rfl, hs, hd1, hpos⟩, ?_⟩⟩
      · have : j + 1 ≠ s.2.length := by omega
        simp [inc, outer_at, middle_at, hs, hd, hk1, this]
      · have hdj : s.2.drop (j + 1) = s.2[j + 1] :: s.2.drop (j + 1 + 1) :=
          List.drop_eq_getElem_cons h2
        rw [hdrop0, hdj]
        simp only [rest_of, rest, hs, hd1, cell, List.drop_zero, List.flatMap_cons, List.map_nil,
          List.nil_append, List.append_assoc]
    · have hj1 : j + 1 = s.2.length := by omega
      have hdropj : s.2.drop (j + 1) = [] := List.drop_eq_nil_of_le (by omega)
      by_cases h3 : i + 1 < g.edges_.length
      · -- the first weight of the first destination of the next source
        have hs1 : g.edges_[i + 1]? = some g.edges_[i + 1] := List.getElem?_eq_getElem h3
        have hs1mem : g.edges_[i + 1] ∈ g.edges_ := List.getElem?_mem hs1
        have hpos1 : 0 < (g.edges_[i + 1]).2.length :=
          List.length_pos.2 (hne _ hs1mem).1
        have hd0 : (g.edges_[i + 1]).2[0]? = some (g.edges_[i + 1]).2[0] :=
          List.getElem?_eq_getElem hpos1
        have hd0mem : (g.edges_[i + 1]).2[0] ∈ (g.edges_[i + 1]).2 := List.getElem?_mem hd0
        have hpos2 : 0 < ((g.edges_[i + 1]).2[0]).2.length :=
          List.length_pos.2 ((hne _ hs1mem).2 _ hd0mem)
        refine ⟨_, _, ⟨i + 1, some 0, some 0⟩, hrest, hderef, ?_,
          Or.inl ⟨⟨0, 0, g.edges_[i + 1], (g.edges_[i + 1]).2[0], rfl, rfl, hs1, hd0, hpos2⟩, ?_⟩⟩
        · have : i + 1 ≠ g.edges_.length := by omega
          simp [inc, outer_at, middle_at, hs, hd, hk1, hj1, this, hs1, hd0]
        · have hdi : g.edges_.drop (i + 1) = g.edges_[i + 1] :: g.edges_.drop (i + 1 + 1) :=
            List.drop_eq_getElem_cons h3
          have hrow : row g.edges_[i + 1] =
              cell (g.edges_[i + 1]).1 (g.edges_[i + 1]).2[0] ++
                ((g.edges_[i + 1]).2.drop 1).flatMap (cell (g.edges_[i + 1]).1) := by
            have := drop_one_of_head _ _ hd0
            unfold row
            conv_lhs => rw [this]
            simp
          rw [hdrop0, hdropj, hdi, List.flatMap_cons, hrow]
          simp only [rest_of, rest, hs1, hd0, cell, List.drop_zero, List.flatMap_nil, List.map_nil,
            List.nil_append, List.append_assoc, zero_add]
      · -- nothing is left
        have hi1 : i + 1 = g.edges_.length := by omega
        have hdropi : g.edges_.drop (i + 1) = [] := List.drop_eq_nil_of_le (by omega)
        refine ⟨_, _, ⟨i + 1, none, none⟩, hrest, hderef, ?_, Or.inr ⟨by simp [end_, hi1], ?_⟩⟩
        · simp [inc, outer_at, middle_at, hs, hd, hk1, hj1, hi1]
        · simp [hdrop0, hdropj, hdropi, cell]

theorem mem_cell (a : N) (d : N × List E) (x : value_type N E) :
    x ∈ cell a d ↔ x.from_ = a ∧ x.to_ = d.1 ∧ x.weight ∈ d.2 := by
  obtain ⟨xa, xb, xw⟩ := x
  simp only [cell, List.mem_map, value_type.mk.injEq]
  constructor
  · rintro ⟨w, hw, rfl, rfl, rfl⟩; exact ⟨rfl, rfl, hw⟩
  · rintro ⟨rfl, rfl, hw⟩; exact ⟨xw, hw, rfl, rfl, rfl⟩

theorem mem_row (s : N × List (N × List E)) (x : value_type N E) :
    x ∈ row s ↔ x.from_ = s.1 ∧ ∃ d ∈ s.2, x.to_ = d.1 ∧ x.weight ∈ d.2 := by
  simp only [row, List.mem_flatMap, mem_cell]
  constructor
  · rintro ⟨d, hd, h1, h2, h3⟩; exact ⟨h1, d, hd, h2, h3⟩
  · rintro ⟨h1, d, hd, h2, h3⟩; exact ⟨d, hd, h1, h2, h3⟩

/-- The flattened adjacency structure holds exactly the stored edges. -/
theorem mem_edge_list (g : graph N E) (a b : N) (w : E) :
    (⟨a, b, w⟩ : value_type N E) ∈ g.edge_list ↔ g.stored a b w := by
  simp only [edge_list, List.mem_flatMap, mem_row, stored]
  constructor
  · rintro ⟨s, hs, h1, d, hd, h2, h3⟩; exact ⟨s, hs, h1.symm, d, hd, h2.symm, h3⟩
  · rintro ⟨s, hs, h1, d, hd, h2, h3⟩; exact ⟨s, hs, h1.symm, d, hd, h2.symm, h3⟩

theorem length_edge_list (g : graph N E) : g.edge_list.length = g.edge_count := by
  have hrow : ∀ s : N × List (N × List E), (row s).length = (s.2.map fun d => d.2.length).sum := by
    intro s
    simp only [row, List.length_flatMap]
    congr 1
    apply List.map_congr_left
    intro d _
    simp [cell]
  simp only [edge_list, edge_count, List.length_flatMap]
  congr 1
  apply List.map_congr_left
  intro s _
  exact hrow s

theorem pairwise_cell (a : N) (d : N × List E) (h : d.2.Pairwise (· < ·)) :
    (cell a d).Pairwise edge_lt := by
  unfold cell
  rw [List.pairwise_map]
  exact h.imp fun hlt => Or.inr ⟨rfl, Or.inr ⟨rfl, hlt⟩⟩

theorem pairwise_row (s : N × List (N × List E)) (h1 : (s.2.map Prod.fst).Pairwise (· < ·))
    (h2 : ∀ d ∈ s.2, d.2.Pairwise (· < ·)) : (row s).Pairwise edge_lt := by
  unfold row
  rw [List.pairwise_flatMap]
  refine ⟨fun d hd => pairwise_cell _ _ (h2 d hd), ?_⟩
  rw [List.pairwise_map] at h1
  refine h1.imp ?_
  intro d1 d2 hlt x hx y hy
  rw [mem_cell] at hx hy
  exact Or.inr ⟨hx.1.trans hy.1.symm, Or.inl (by rw [hx.2.1, hy.2.1]; exact hlt)⟩

/-- In a graph whose containers are sorted the flattened adjacency structure is strictly
ascending in the lexicographic order. -/
theorem pairwise_edge_list (g : graph N E) (hs : g.sorted) : g.edge_list.Pairwise edge_lt := by
  obtain ⟨_, h1, h2⟩ := hs
  unfold edge_list
  rw [List.pairwise_flatMap]
  refine ⟨fun s hs => pairwise_row _ (h2 s hs).1 (h2 s hs).2, ?_⟩
  rw [List.pairwise_map] at h1
  refine h1.imp ?_
  intro s1 s2 hlt x hx y hy
  rw [mem_row] at hx hy
  exact Or.inl (by rw [hx.1, hy.1]; exact hlt)

theorem edge_lt_irrefl (x : value_type N E) : ¬ edge_lt x x := by
  intro h
  rcases h with h | ⟨_, h | ⟨_, h⟩⟩ <;> exact lt_irrefl _ h

theorem nodup_edge_list (g : graph N E) (hs : g.sorted) : g.edge_list.Nodup := by
  have h := pairwise_edge_list g hs
  unfold List.Nodup
  refine h.imp ?_
  intro a b hab heq
  subst heq
  exact edge_lt_irrefl a hab

/-- With no empty level and at least one source entry, `begin()` is the position of the first
weight of the first destination of the first source. -/
theorem begin_valid (g : graph N E) (hne : g.no_empty_level) (hnil : g.edges_ ≠ []) :
    g.begin = .ok ⟨0, some 0, some 0⟩ ∧ g.valid ⟨0, some 0, some 0⟩ ∧
      g.rest_of ⟨0, some 0, some 0⟩ = g.edge_list := by
  obtain ⟨nodes, edges⟩ := g
  cases edges with
  | nil => exact absurd rfl hnil
  | cons s es =>
    have hs := (hne s (List.mem_cons_self _ _))
    obtain ⟨a, dm⟩ := s
    cases dm with
    | nil => exact absurd rfl hs.1
    | cons d ds =>
      have hd := hs.2 d (List.mem_cons_self _ _)
      refine ⟨by simp [begin],
        ⟨0, 0, (a, d :: ds), d, rfl, rfl, by simp, by simp, List.length_pos.2 hd⟩, ?_⟩
      simp [rest_of, rest, edge_list, row, cell]

theorem edges_ne_nil_of_count (g : graph N E) (hn : 1 ≤ g.edge_count) : g.edges_ ≠ [] := by
  intro h
  simp [edge_count, h] at hn

/-- The traversal invariant: after `m` increments from a valid position the iterator is valid
with the `m`-th tail left to visit, and after as many increments as there are edges left it is
`end()`. -/
theorem advance_spec (g : graph N E) (hne : g.no_empty_level) (it : iterator) (hv : g.valid it)
    (m : Nat) (hm : m ≤ (g.rest_of it).length) :
    ∃ c, g.advance it m = .ok c ∧
      ((m < (g.rest_of it).length ∧ g.valid c ∧ g.rest_of c = (g.rest_of it).drop m) ∨
        (m = (g.rest_of it).length ∧ c = g.end_)) := by
  induction m with
  | zero =>
    refine ⟨it, rfl, Or.inl ⟨?_, hv, by simp⟩⟩
    obtain ⟨v, t, _, h, _⟩ := step_valid g hne it hv
    simp [h]
  | succ m ih =>
    obtain ⟨c, hc, hcase⟩ := ih (by omega)
    rcases hcase with ⟨_, hvc, hrc⟩ | ⟨hmeq, _⟩
    · obtain ⟨v, t, nx, hrest, _, hinc, hnx⟩ := step_valid g hne c hvc
      have hdrop : (g.rest_of it).drop (m + 1) = t := by
        have : (g.rest_of it).drop (m + 1) = ((g.rest_of it).drop m).drop 1 := by
          rw [List.drop_drop]
        rw [this, ← hrc, hrest]
        rfl
      have hlen : t.length = (g.rest_of it).length - (m + 1) := by
        rw [← hdrop, List.length_drop]
      refine ⟨nx, by simp [advance, hc, hinc], ?_⟩
      rcases hnx with ⟨hvn, hrn⟩ | ⟨hend, ht⟩
      · obtain ⟨v2, t2, _, hrest2, _⟩ := step_valid g hne nx hvn
        have : 0 < t.length := by rw [← hrn, hrest2]; simp
        exact Or.inl ⟨by omega, hvn, by rw [hrn, hdrop]⟩
      · have : t.length = 0 := by rw [ht]; rfl
        exact Or.inr ⟨by omega, hend⟩
    · omega

/-- C1: in a graph whose containers are sorted, that has no empty level and stores
`n ≥ 1` edges, `begin()` succeeds; for every `m < n` the iterator reached by `m` increments is
not `end()` and dereferences to the `m`-th stored edge; after exactly `n` increments the
iterator equals `end()`; and the edges so visited are `n` in number, strictly ascending in
lexicographic `(from, to, weight)` order, free of repetitions, and exactly the stored edges. -/
theorem traversal_visits_every_edge_ascending (g : graph N E) (hs : g.sorted)
    (hne : g.no_empty_level) (hn : 1 ≤ g.edge_count) :
    ∃ first, g.begin = .ok first ∧
      (∀ m, m < g.edge_count → ∃ c v, g.advance first m = .ok c ∧ c ≠ g.end_ ∧
          g.deref c = .ok v ∧ g.edge_list[m]? = some v) ∧
      g.advance first g.edge_count = .ok g.end_ ∧
      g.edge_list.length = g.edge_count ∧
      g.edge_list.Pairwise edge_lt ∧ g.edge_list.Nodup ∧
      ∀ a b w, (⟨a, b, w⟩ : value_type N E) ∈ g.edge_list ↔ g.stored a b w := by
  obtain ⟨hb, hv, hr⟩ := begin_valid g hne (edges_ne_nil_of_count g hn)
  have hlen := length_edge_list g
  refine ⟨_, hb, ?_, ?_, hlen, pairwise_edge_list g hs, nodup_edge_list g hs, mem_edge_list g⟩
  · intro m hm
    obtain ⟨c, hc, hcase⟩ := advance_spec g hne _ hv m (by rw [hr, hlen]; omega)
    rcases hcase with ⟨_, hvc, hrc⟩ | ⟨hmeq, _⟩
    · obtain ⟨v, t, _, hrest, hderef, _⟩ := step_valid g hne c hvc
      refine ⟨c, v, hc, valid_ne_end g c hvc, hderef, ?_⟩
      rw [hr] at hrc
      have h0 : (g.edge_list.drop m)[0]? = some v := by rw [← hrc, hrest]; simp
      rw [List.getElem?_drop] at h0
      simpa using h0
    · rw [hr, hlen] at hmeq; omega
  · obtain ⟨c, hc, hcase⟩ := advance_spec g hne _ hv g.edge_count (by rw [hr, hlen])
    rcases hcase with ⟨hlt, _⟩ | ⟨_, hend⟩
    · rw [hr, hlen] at hlt; omega
    · rw [hc, hend]

/-! ### find -/

theorem find_loop_end (g : graph N E) (a b : N) (w : E) (n : Nat) :
    g.find_loop a b w (n + 1) g.end_ = .ok g.end_ := by
  simp [find_loop]

/-- The loop of `find` from a valid position, given at least one iteration more than there are
edges left: it stops at the wanted edge when that edge is among those left, and at `end()`
otherwise. -/
theorem find_loop_spec (g : graph N E) (hne : g.no_empty_level) (a b : N) (w : E) (n : Nat) :
    ∀ it, g.valid it → (g.rest_of it).length + 1 ≤ n →
      ∃ c, g.find_loop a b w n it = .ok c ∧
        (((⟨a, b, w⟩ : value_type N E) ∈ g.rest_of it ∧ g.valid c ∧ g.deref c = .ok ⟨a, b, w⟩) ∨
          ((⟨a, b, w⟩ : value_type N E) ∉ g.rest_of it ∧ c = g.end_)) := by
  induction n with
  | zero => intro it _ h; omega
  | succ n ih =>
    intro it hv hn
    obtain ⟨v, t, nx, hrest, hderef, hinc, hnx⟩ := step_valid g hne it hv
    have hne_end := valid_ne_end g it hv
    rw [hrest] at hn ⊢
    simp only [List.length_cons] at hn
    by_cases hmatch : v.from_ = a ∧ v.to_ = b ∧ v.weight = w
    · have hveq : v = ⟨a, b, w⟩ := by
        obtain ⟨va, vb, vw⟩ := v
        obtain ⟨h1, h2, h3⟩ := hmatch
        simp only at h1 h2 h3
        subst h1 h2 h3
        rfl
      refine ⟨it, by simp [find_loop, hne_end, hderef, hmatch], Or.inl ⟨?_, hv, ?_⟩⟩
      · rw [hveq]; exact List.mem_cons_self _ _
      · rw [hderef, hveq]
    · have hvne : (⟨a, b, w⟩ : value_type N E) ≠ v := by
        intro h
        apply hmatch
        rw [← h]
        exact ⟨rfl, rfl, rfl⟩
      have hloop : g.find_loop a b w (n + 1) it = g.find_loop a b w n nx := by
        simp [find_loop, hne_end, hderef, hmatch, hinc]
      rw [hloop]
      rcases hnx with ⟨hvn, hrn⟩ | ⟨hend, ht⟩
      · obtain ⟨c, hc, hcase⟩ := ih nx hvn (by rw [hrn]; omega)
        refine ⟨c, hc, ?_⟩
        rw [hrn] at hcase
        rcases hcase with ⟨hm, h2⟩ | ⟨hm, h2⟩
        · exact Or.inl ⟨List.mem_cons_of_mem _ hm, h2⟩
        · refine Or.inr ⟨?_, h2⟩
          intro hmem
          rcases List.mem_cons.1 hmem with h | h
          · exact hvne h
          · exact hm h
      · subst ht
        cases n with
        | zero => simp at hn
        | succ n =>
          refine ⟨g.end_, by rw [hend, find_loop_end], Or.inr ⟨?_, rfl⟩⟩
          intro hmem
          rcases List.mem_cons.1 hmem with h | h
          · exact hvne h
          · simp at h

/-- On a graph with no empty level and at least one source entry, `find` returns an iterator;
it is a valid position dereferencing to the wanted edge when that edge is stored, and `end()`
when it is not. -/
theorem find_spec (g : graph N E) (hne : g.no_empty_level) (hnil : g.edges_ ≠ []) (a b : N)
    (w : E) :
    ∃ c, g.find a b w = .ok c ∧
      ((g.stored a b w ∧ g.valid c ∧ g.deref c = .ok ⟨a, b, w⟩) ∨
        (¬ g.stored a b w ∧ c = g.end_)) := by
  obtain ⟨hb, hv, hr⟩ := begin_valid g hne hnil
  obtain ⟨c, hc, hcase⟩ := find_loop_spec g hne a b w (g.edge_count + 1) _ hv
    (by rw [hr, length_edge_list])
  rw [hr, mem_edge_list] at hcase
  exact ⟨c, by simp [find, hb, hc], hcase⟩

/-- C2 (failing input): on the graph with the single node 1 and no edge, `find(1, 1, 1)` does
not return `end()`: `begin()` reads `srcmap->second` through the past-the-end position of the
empty `edges_`. -/
theorem find_on_edgeless_graph_is_undefined :
    ¬ (⟨[1], []⟩ : graph Int Int).stored 1 1 1 ∧
      (⟨[1], []⟩ : graph Int Int).begin = .error .undefined ∧
      (⟨[1], []⟩ : graph Int Int).find 1 1 1 = .error .undefined := by
  decide

/-! ### insert_edge -/

theorem is_node_iff (g : graph N E) (v : N) : g.is_node v = true ↔ v ∈ g.nodes := by
  simp [is_node, set_contains, nodes]

theorem edge_exists_iff (g : graph N E) (a b : N) (w : E) :
    g.edge_exists a b w = true ↔ g.stored a b w := by
  simp only [edge_exists, stored, set_contains, List.any_eq_true, Bool.and_eq_true,
    decide_eq_true_eq]

/-- The edges stored after `edges_[src][dst].insert(weight)`. -/
theorem stored_after_insert (nodes : List N) (edges : List (N × List (N × List E)))
    (src dst : N) (w : E) (a b : N) (x : E) :
    (⟨nodes, map_index src (map_index dst (set_insert w) []) [] edges⟩ : graph N E).stored a b x ↔
      (⟨nodes, edges⟩ : graph N E).stored a b x ∨ (a = src ∧ b = dst ∧ x = w) := by
  have h2 : ∀ dm : List (N × List E),
      (∃ d ∈ map_index dst (set_insert w) [] dm, d.1 = b ∧ x ∈ d.2) ↔
        (∃ d ∈ dm, d.1 = b ∧ x ∈ d.2) ∨ (b = dst ∧ x = w) :=
    fun dm => exists_map_index_add dst b (set_insert w) [] dm (fun ws => x ∈ ws) (x = w)
      (fun ws => mem_set_insert w x ws) (by simp)
  exact exists_map_index_add src a (map_index dst (set_insert w) []) [] edges
    (fun dm => ∃ d ∈ dm, d.1 = b ∧ x ∈ d.2) (b = dst ∧ x = w) h2 (by simp)

/-- C3: when `src` and `dst` are nodes, `insert_edge(src, dst, w)` returns false and leaves the
graph as it was if the edge is already stored; otherwise it returns true, `nodes()` is
unchanged, and the stored edges are exactly the previous ones together with
`(src, dst, w)`. -/
theorem insert_edge_on_nodes (g : graph N E) (src dst : N) (w : E)
    (hsrc : g.is_node src = true) (hdst : g.is_node dst = true) :
    (g.stored src dst w → g.insert_edge src dst w = (.ok false, g)) ∧
      (¬ g.stored src dst w →
        (g.insert_edge src dst w).1 = .ok true ∧
          (g.insert_edge src dst w).2.nodes = g.nodes ∧
          ∀ a b x, (g.insert_edge src dst w).2.stored a b x ↔
            (g.stored a b x ∨ (a = src ∧ b = dst ∧ x = w))) := by
  constructor
  · intro h
    have he := (edge_exists_iff g src dst w).2 h
    simp [insert_edge, hsrc, hdst, he]
  · intro h
    have he : g.edge_exists src dst w = false := by
      rw [← Bool.not_eq_true, edge_exists_iff]; exact h
    have hins : g.insert_edge src dst w = (.ok true,
        ⟨g.nodes_, map_index src (map_index dst (set_insert w) []) [] g.edges_⟩) := by
      simp [insert_edge, hsrc, hdst, he]
    rw [hins]
    exact ⟨rfl, rfl, fun a b x => stored_after_insert g.nodes_ g.edges_ src dst w a b x⟩

/-- C4: `insert_edge(src, dst, w)` ends in the `std::runtime_error` exactly when `src` or `dst`
is not a node, it ends in no other fault, and a call that fails leaves the graph, nodes and
edges, as it was. -/
theorem insert_edge_throws_iff (g : graph N E) (src dst : N) (w : E) :
    ((g.insert_edge src dst w).1 = .error .runtime_error ↔
        (g.is_node src = false ∨ g.is_node dst = false)) ∧
      (∀ e, (g.insert_edge src dst w).1 = .error e →
        e = .runtime_error ∧ (g.insert_edge src dst w).2 = g) := by
  unfold insert_edge
  by_cases h1 : g.is_node src = true <;> by_cases h2 : g.is_node dst = true <;>
    by_cases h3 : g.edge_exists src dst w = true <;> simp_all

/-! ### erase_node -/

theorem map_modify_of_not_contains {K V : Type} [LinearOrder K] (k : K) (f : V → V)
    (m : List (K × V)) (h : ¬ map_contains k m = true) : map_modify k f m = m := by
  rw [map_contains_iff] at h
  push_neg at h
  unfold map_modify
  conv_rhs => rw [← List.map_id m]
  apply List.map_congr_left
  intro p hp
  rw [if_neg (h p hp)]
  rfl

theorem map_erase_idem {K V : Type} [LinearOrder K] (k : K) (m : List (K × V)) :
    map_erase k (map_erase k m) = map_erase k m := by
  simp [map_erase, List.filter_filter]

/-- The loop of `erase_node` over the remaining nodes erases the destination `value` from the
destination map of every source that is one of those nodes, and touches no other entry. -/
theorem erase_node_loop (value : N) (ns : List N) :
    ∀ es : List (N × List (N × List E)),
      ns.foldl (fun es n =>
          if map_contains n es then map_modify n (map_erase value) es else es) es =
        es.map (fun p => if p.1 ∈ ns then (p.1, map_erase value p.2) else p) := by
  induction ns with
  | nil => intro es; simp
  | cons n ns ih =>
    intro es
    have hstep : (if map_contains n es then map_modify n (map_erase value) es else es) =
        map_modify n (map_erase value) es := by
      split
      · rfl
      · rename_i h; exact (map_modify_of_not_contains n _ es h).symm
    rw [List.foldl_cons, hstep, ih]
    unfold map_modify
    rw [List.map_map]
    apply List.map_congr_left
    intro p _
    simp only [Function.comp]
    by_cases hpn : p.1 = n
    · rw [if_pos hpn]
      simp only [map_erase_idem, hpn, List.mem_cons, true_or, if_true, ite_self]
    · rw [if_neg hpn]
      simp only [List.mem_cons, hpn, false_or]

/-- The graph `erase_node` leaves when `value` is a node. -/
theorem erase_node_eq (g : graph N E) (value : N) (h : g.is_node value = true) :
    g.erase_node value = (true, ⟨set_erase value g.nodes_,
      (map_erase value g.edges_).map
        (fun p => if p.1 ∈ set_erase value g.nodes_ then (p.1, map_erase value p.2) else p)⟩) := by
  simp only [erase_node, h, Bool.not_true, Bool.false_eq_true, if_false, erase_node_loop]

/-- C5: in a graph where every source key and every destination key is a registered node,
`erase_node(v)` returns false and changes nothing when `v` is not a node; otherwise it returns
true, `nodes()` is the previous sequence without `v`, and the stored edges are exactly the
previous ones that have `v` neither as source nor as destination. -/
theorem erase_node_removes_incident_edges (g : graph N E) (hk : g.keys_registered) (v : N) :
    (g.is_node v = false → g.erase_node v = (false, g)) ∧
      (g.is_node v = true →
        (g.erase_node v).1 = true ∧
          (g.erase_node v).2.nodes = g.nodes.filter (fun n => decide (n ≠ v)) ∧
          (∀ n, (g.erase_node v).2.is_node n = true ↔ (g.is_node n = true ∧ n ≠ v)) ∧
          ∀ a b x, (g.erase_node v).2.stored a b x ↔ (g.stored a b x ∧ a ≠ v ∧ b ≠ v)) := by
  constructor
  · intro h
    simp [erase_node, h]
  · intro h
    rw [erase_node_eq g v h]
    refine ⟨rfl, rfl, ?_, ?_⟩
    · intro n
      simp only [is_node, set_contains, decide_eq_true_eq, mem_set_erase]
    · intro a b x
      simp only [stored, List.mem_map, map_erase, List.mem_filter, decide_eq_true_eq]
      constructor
      · rintro ⟨s, ⟨q, ⟨hq, hqv⟩, rfl⟩, hsa, hd⟩
        have hreg : q.1 ∈ set_erase v g.nodes_ := by
          rw [mem_set_erase]
          exact ⟨(is_node_iff g q.1).1 (hk q hq).1, hqv⟩
        rw [if_pos hreg] at hsa hd
        simp only [List.mem_filter, decide_eq_true_eq] at hsa hd
        obtain ⟨d, ⟨hd1, hdv⟩, hdb, hx⟩ := hd
        exact ⟨⟨q, hq, hsa, d, hd1, hdb, hx⟩, by rw [← hsa]; exact hqv, by rw [← hdb]; exact hdv⟩
      · rintro ⟨⟨q, hq, hqa, d, hd1, hdb, hx⟩, hav, hbv⟩
        have hqv : q.1 ≠ v := by rw [hqa]; exact hav
        have hreg : q.1 ∈ set_erase v g.nodes_ := by
          rw [mem_set_erase]
          exact ⟨(is_node_iff g q.1).1 (hk q hq).1, hqv⟩
        refine ⟨_, ⟨q, ⟨hq, hqv⟩, rfl⟩, ?_⟩
        rw [if_pos hreg]
        refine ⟨hqa, d, ?_, hdb, hx⟩
        simp only [List.mem_filter, decide_eq_true_eq]
        exact ⟨hd1, by rw [hdb]; exact hbv⟩

/-! ### erase_edge -/

/-- The edges stored after `edges_[src][dst].erase(weight)`. -/
theorem stored_after_erase_weight (nodes : List N) (edges : List (N × List (N × List E)))
    (src dst : N) (w : E) (a b : N) (x : E) :
    (⟨nodes, map_index src (map_index dst (set_erase w) []) [] edges⟩ : graph N E).stored a b x ↔
      (⟨nodes, edges⟩ : graph N E).stored a b x ∧ ¬ (a = src ∧ b = dst ∧ x = w) := by
  have h2 : ∀ dm : List (N × List E),
      (∃ d ∈ map_index dst (set_erase w) [] dm, d.1 = b ∧ x ∈ d.2) ↔
        (∃ d ∈ dm, d.1 = b ∧ x ∈ d.2) ∧ ¬ (b = dst ∧ x = w) := by
    intro dm
    rw [exists_map_index_remove dst b (set_erase w) [] dm (fun ws => x ∈ ws) (x = w)
      (fun ws => mem_set_erase w x ws) (by simp)]
    constructor
    · rintro ⟨d, hd, h1, h2, h3⟩; exact ⟨⟨d, hd, h1, h2⟩, h3⟩
    · rintro ⟨⟨d, hd, h1, h2⟩, h3⟩; exact ⟨d, hd, h1, h2, h3⟩
  unfold stored
  rw [exists_map_index_remove src a (map_index dst (set_erase w) []) [] edges
    (fun dm => ∃ d ∈ dm, d.1 = b ∧ x ∈ d.2) (b = dst ∧ x = w) h2 (by simp)]
  constructor
  · rintro ⟨s, hs, h1, h2, h3⟩; exact ⟨⟨s, hs, h1, h2⟩, h3⟩
  · rintro ⟨⟨s, hs, h1, h2⟩, h3⟩; exact ⟨s, hs, h1, h2, h3⟩

/-- The edges stored after `edges_[src].erase(dst)`. -/
theorem stored_after_erase_dst (nodes : List N) (edges : List (N × List (N × List E)))
    (src dst : N) (a b : N) (x : E) :
    (⟨nodes, map_index src (map_erase dst) [] edges⟩ : graph N E).stored a b x ↔
      (⟨nodes, edges⟩ : graph N E).stored a b x ∧ ¬ (a = src ∧ b = dst) := by
  have h2 : ∀ dm : List (N × List E),
      (∃ d ∈ map_erase dst dm, d.1 = b ∧ x ∈ d.2) ↔
        (∃ d ∈ dm, d.1 = b ∧ x ∈ d.2) ∧ ¬ (b = dst) := by
    intro dm
    simp only [map_erase, List.mem_filter, decide_eq_true_eq]
    constructor
    · rintro ⟨d, ⟨hd, hne⟩, h1, h2⟩; exact ⟨⟨d, hd, h1, h2⟩, by rw [← h1]; exact hne⟩
    · rintro ⟨⟨d, hd, h1, h2⟩, h3⟩; exact ⟨d, ⟨hd, by rw [h1]; exact h3⟩, h1, h2⟩
  unfold stored
  rw [exists_map_index_remove src a (map_erase dst) [] edges
    (fun dm => ∃ d ∈ dm, d.1 = b ∧ x ∈ d.2) (b = dst) h2 (by simp)]
  constructor
  · rintro ⟨s, hs, h1, h2, h3⟩; exact ⟨⟨s, hs, h1, h2⟩, h3⟩
  · rintro ⟨⟨s, hs, h1, h2⟩, h3⟩; exact ⟨s, hs, h1, h2, h3⟩

/-- Whatever the registry holds, `erase_node(v)` on a node `v` stores no edge that was not
stored before and no edge leaving `v`. -/
theorem stored_after_erase_node (g : graph N E) (v : N) (h : g.is_node v = true) (a b : N)
    (x : E) (hst : (g.erase_node v).2.stored a b x) : g.stored a b x ∧ a ≠ v := by
  rw [erase_node_eq g v h] at hst
  simp only [stored, List.mem_map, map_erase, List.mem_filter, decide_eq_true_eq] at hst
  obtain ⟨s, ⟨q, ⟨hq, hqv⟩, rfl⟩, hsa, d, hd, hdb, hx⟩ := hst
  split at hsa
  · rename_i hreg
    rw [if_pos hreg] at hd
    simp only [List.mem_filter, decide_eq_true_eq] at hsa hd
    exact ⟨⟨q, hq, hsa, d, hd.1, hdb, hx⟩, by rw [← hsa]; exact hqv⟩
  · rename_i hreg
    rw [if_neg hreg] at hd
    exact ⟨⟨q, hq, hsa, d, hd, hdb, hx⟩, by rw [← hsa]; exact hqv⟩

/-- With distinct keys at both levels, a stored edge is found through the two lookups
`edges_[src][dst]`. -/
theorem lookup_of_stored (g : graph N E) (hs : g.sorted) (src dst : N) (w : E)
    (hst : g.stored src dst w) :
    ∃ dm ws, map_find src g.edges_ = some dm ∧ map_find dst dm = some ws ∧ w ∈ ws := by
  obtain ⟨s, hsmem, hs1, d, hdmem, hd1, hw⟩ := hst
  obtain ⟨_, hso, hsi⟩ := hs
  obtain ⟨sa, dm⟩ := s
  obtain ⟨db, ws⟩ := d
  simp only at hs1 hd1 hdmem hw
  subst hs1 hd1
  exact ⟨dm, ws, map_find_of_mem _ _ _ hso hsmem,
    map_find_of_mem _ _ _ (hsi _ hsmem).1 hdmem, hw⟩

theorem stored_of_lookup (g : graph N E) (src dst : N) (w : E) (dm : List (N × List E))
    (ws : List E) (h1 : map_find src g.edges_ = some dm) (h2 : map_find dst dm = some ws)
    (hw : w ∈ ws) : g.stored src dst w :=
  ⟨(src, dm), map_find_mem _ _ _ h1, rfl, (dst, ws), map_find_mem _ _ _ h2, rfl, hw⟩

theorem is_connected_of_lookup (g : graph N E) (src dst : N) (hsrc : g.is_node src = true)
    (hdst : g.is_node dst = true) (dm : List (N × List E))
    (h1 : map_find src g.edges_ = some dm) :
    g.is_connected src dst = .ok (map_contains dst dm) := by
  simp [is_connected, hsrc, hdst, h1]

theorem is_connected_of_no_source (g : graph N E) (src dst : N) (hsrc : g.is_node src = true)
    (hdst : g.is_node dst = true) (h1 : map_find src g.edges_ = none) :
    g.is_connected src dst = .ok false := by
  simp [is_connected, hsrc, hdst, h1]

/-- On nodes, with no empty level, `erase_edge` of an edge that is not stored returns false and
leaves the graph as it was. -/
theorem erase_edge_not_stored (g : graph N E) (hne : g.no_empty_level) (src dst : N) (w : E)
    (hsrc : g.is_node src = true) (hdst : g.is_node dst = true) (hst : ¬ g.stored src dst w) :
    g.erase_edge src dst w = (.ok false, g) := by
  cases h1 : map_find src g.edges_ with
  | none =>
    simp [erase_edge, hsrc, hdst, is_connected_of_no_source g src dst hsrc hdst h1]
  | some dm =>
    have hconn := is_connected_of_lookup g src dst hsrc hdst dm h1
    by_cases hc : map_contains dst dm = true
    · have hnil : g.edges_ ≠ [] := by
        intro h; rw [h] at h1; simp [map_find] at h1
      obtain ⟨c, hfind, hcase⟩ := find_spec g hne hnil src dst w
      rcases hcase with ⟨h, _⟩ | ⟨_, hend⟩
      · exact absurd h hst
      · rw [hc] at hconn
        simp [erase_edge, hsrc, hdst, hconn, hfind, hend]
    · have hc2 : map_contains dst dm = false := by simpa using hc
      rw [hc2] at hconn
      simp [erase_edge, hsrc, hdst, hconn]

/-- On nodes, with sorted containers and no empty level, `erase_edge` of a stored edge returns
true and the edge is not stored afterwards. -/
theorem erase_edge_stored (g : graph N E) (hs : g.sorted) (hne : g.no_empty_level)
    (src dst : N) (w : E) (hsrc : g.is_node src = true) (hdst : g.is_node dst = true)
    (hst : g.stored src dst w) :
    (g.erase_edge src dst w).1 = .ok true ∧ ¬ (g.erase_edge src dst w).2.stored src dst w := by
  obtain ⟨dm, ws, h1, h2, hw⟩ := lookup_of_stored g hs src dst w hst
  have hconn : g.is_connected src dst = .ok true := by
    rw [is_connected_of_lookup g src dst hsrc hdst dm h1]
    simp [map_contains, h2]
  have hnil : g.edges_ ≠ [] := by
    intro h; rw [h] at h1; simp [map_find] at h1
  obtain ⟨c, hfind, hcase⟩ := find_spec g hne hnil src dst w
  have hcne : c ≠ g.end_ := by
    rcases hcase with ⟨_, hv, _⟩ | ⟨h, _⟩
    · exact valid_ne_end g c hv
    · exact absurd hst h
  have hat : map_at dst [] (map_at src [] g.edges_) = ws := by
    simp [map_at, h1, h2]
  have hpos : 0 < ws.length := List.length_pos_of_mem hw
  by_cases hlen : ws.length > 1
  · have heq : g.erase_edge src dst w = (.ok true,
        ⟨g.nodes_, map_index src (map_index dst (set_erase w) []) [] g.edges_⟩) := by
      simp [erase_edge, hsrc, hdst, hconn, hfind, hcne, hat, hlen]
    rw [heq]
    refine ⟨rfl, ?_⟩
    rw [stored_after_erase_weight]
    exact fun h => h.2 ⟨rfl, rfl, rfl⟩
  · have hone : ws.length = 1 := by omega
    have hg1 : ¬ (⟨g.nodes_, map_index src (map_erase dst) []
        (map_index src (map_index dst (set_erase w) []) [] g.edges_)⟩ : graph N E).stored
          src dst w := by
      rw [stored_after_erase_dst]
      exact fun h => h.2 ⟨rfl, rfl⟩
    by_cases hempty : (map_at src ([] : List (N × List E)) (map_index src (map_erase dst) []
        (map_index src (map_index dst (set_erase w) []) [] g.edges_))).length = 0
    · have heq : g.erase_edge src dst w = (.ok true,
          ((⟨g.nodes_, map_index src (map_erase dst) []
            (map_index src (map_index dst (set_erase w) []) [] g.edges_)⟩ :
              graph N E).erase_node src).2) := by
        simp [erase_edge, hsrc, hdst, hconn, hfind, hcne, hat, hone, hempty]
      rw [heq]
      refine ⟨rfl, ?_⟩
      intro h
      exact (stored_after_erase_node _ src (by simpa [is_node] using hsrc) src dst w h).2 rfl
    · have heq : g.erase_edge src dst w = (.ok true,
          ⟨g.nodes_, map_index src (map_erase dst) []
            (map_index src (map_index dst (set_erase w) []) [] g.edges_)⟩) := by
        simp [erase_edge, hsrc, hdst, hconn, hfind, hcne, hat, hone, hempty]
      rw [heq]
      exact ⟨rfl, hg1⟩

/-- C8: in a graph with sorted containers and no empty level, `erase_edge(src, dst, w)` ends in
the `std::runtime_error` exactly when `src` or `dst` is not a node, and a failed call leaves the
graph as it was; when both are nodes it returns a value, true exactly when `(src, dst, w)` was
stored; after a true return the edge is no longer stored, and after a false return the graph
is unchanged. -/
theorem erase_edge_by_value (g : graph N E) (hs : g.sorted) (hne : g.no_empty_level)
    (src dst : N) (w : E) :
    ((g.erase_edge src dst w).1 = .error .runtime_error ↔
        (g.is_node src = false ∨ g.is_node dst = false)) ∧
      (∀ e, (g.erase_edge src dst w).1 = .error e →
        e = .runtime_error ∧ (g.erase_edge src dst w).2 = g) ∧
      (g.is_node src = true → g.is_node dst = true →
        (g.erase_edge src dst w).1 = .ok (decide (g.stored src dst w)) ∧
          (g.stored src dst w → ¬ (g.erase_edge src dst w).2.stored src dst w) ∧
          (¬ g.stored src dst w → g.erase_edge src dst w = (.ok false, g))) := by
  by_cases hsrc : g.is_node src = true
  · by_cases hdst : g.is_node dst = true
    · by_cases hst : g.stored src dst w
      · obtain ⟨h1, h2⟩ := erase_edge_stored g hs hne src dst w hsrc hdst hst
        refine ⟨?_, ?_, fun _ _ => ⟨by rw [h1]; simp [hst], fun _ => h2, fun h => absurd hst h⟩⟩
        · rw [h1]; simp [hsrc, hdst]
        · intro e he; rw [h1] at he; cases he
      · have h := erase_edge_not_stored g hne src dst w hsrc hdst hst
        refine ⟨?_, ?_, fun _ _ => ⟨by rw [h]; simp [hst], fun h2 => absurd h2 hst, fun _ => h⟩⟩
        · rw [h]; simp [hsrc, hdst]
        · intro e he; rw [h] at he; cases he
    · have h : g.erase_edge src dst w = (.error .runtime_error, g) := by
        simp [erase_edge, hdst]
      refine ⟨?_, ?_, fun _ h2 => absurd h2 hdst⟩
      · rw [h]; simp; right; simpa using hdst
      · intro e he; rw [h] at he ⊢
        simp only [Except.error.injEq] at he
        exact ⟨he.symm, rfl⟩
  · have h : g.erase_edge src dst w = (.error .runtime_error, g) := by
      simp [erase_edge, hsrc]
    refine ⟨?_, ?_, fun h2 => absurd h2 hsrc⟩
    · rw [h]; simp; left; simpa using hsrc
    · intro e he; rw [h] at he ⊢
      simp only [Except.error.injEq] at he
      exact ⟨he.symm, rfl⟩

/-! ### replace_node and merge_replace_node -/

theorem sorted_insert_pairwise {K : Type} [LinearOrder K] (x : K) (l : List K)
    (hl : l.Pairwise (· < ·)) (hx : x ∉ l) : (sorted_insert id x l).Pairwise (· < ·) := by
  induction l with
  | nil => simp [sorted_insert]
  | cons b t ih =>
    rw [List.pairwise_cons] at hl
    have hxb : x ≠ b := fun h => hx (h ▸ List.mem_cons_self _ _)
    have hxt : x ∉ t := fun h => hx (List.mem_cons_of_mem _ h)
    unfold sorted_insert
    simp only [id]
    split
    · rename_i hlt
      refine List.pairwise_cons.2 ⟨?_, List.pairwise_cons.2 hl⟩
      intro y hy
      rcases List.mem_cons.1 hy with h | h
      · rw [h]; exact hlt
      · exact lt_trans hlt (hl.1 y h)
    · rename_i hlt
      refine List.pairwise_cons.2 ⟨?_, ih hl.2 hxt⟩
      intro y hy
      rcases (mem_sorted_insert id x y t).1 hy with h | h
      · rw [h]; exact lt_of_le_of_ne (not_lt.1 hlt) (Ne.symm hxb)
      · exact hl.1 y h

theorem set_insert_pairwise {K : Type} [LinearOrder K] (x : K) (l : List K)
    (hl : l.Pairwise (· < ·)) : (set_insert x l).Pairwise (· < ·) := by
  unfold set_insert
  split
  · exact hl
  · rename_i h; exact sorted_insert_pairwise x l hl h

theorem set_erase_pairwise {K : Type} [LinearOrder K] (x : K) (l : List K)
    (hl : l.Pairwise (· < ·)) : (set_erase x l).Pairwise (· < ·) :=
  hl.sublist (List.filter_sublist l)

theorem length_sorted_insert {K α : Type} [LinearOrder K] (key : α → K) (a : α) (l : List α) :
    (sorted_insert key a l).length = l.length + 1 := by
  induction l with
  | nil => simp [sorted_insert]
  | cons b t ih =>
    unfold sorted_insert
    split
    · simp
    · simp [ih]

theorem length_set_erase {K : Type} [LinearOrder K] (x : K) (l : List K)
    (hl : l.Pairwise (· < ·)) (hx : x ∈ l) : (set_erase x l).length + 1 = l.length := by
  induction l with
  | nil => simp at hx
  | cons b t ih =>
    rw [List.pairwise_cons] at hl
    by_cases hbx : b = x
    · subst hbx
      have hall : ∀ y ∈ t, decide (y ≠ b) = true := by
        intro y hy
        simpa using ne_of_gt (hl.1 y hy)
      simp only [set_erase, List.filter_cons, ne_eq, not_true_eq_false, decide_False,
        Bool.false_eq_true, if_false, List.length_cons]
      rw [List.filter_eq_self.2 hall]
    · have hxt : x ∈ t := by
        rcases List.mem_cons.1 hx with h | h
        · exact absurd h.symm hbx
        · exact h
      have := ih hl.2 hxt
      simp only [set_erase] at this ⊢
      rw [List.filter_cons, if_pos (by simpa using hbx), List.length_cons, this,
        List.length_cons]

/-- The inner loop of `replace_node` runs to its end exactly when no destination key of the
map it walks equals `old`. -/
theorem replace_inner_loop_ok (old_data : N) (m : List (N × List E)) :
    replace_inner_loop old_data m = .ok () ↔ map_contains old_data m = false := by
  induction m with
  | nil => simp [replace_inner_loop, map_contains, map_find]
  | cons p t ih =>
    by_cases h : p.1 = old_data
    · simp [replace_inner_loop, map_contains, map_find, h]
    · simp only [replace_inner_loop, if_neg h, ih]
      simp [map_contains, map_find, h]

/-- The inner loop of `replace_node` is undefined exactly when some destination key of the map
it walks equals `old`. -/
theorem replace_inner_loop_undefined (old_data : N) (m : List (N × List E)) :
    replace_inner_loop old_data m = .error .undefined ↔ map_contains old_data m = true := by
  induction m with
  | nil => simp [replace_inner_loop, map_contains, map_find]
  | cons p t ih =>
    by_cases h : p.1 = old_data
    · simp [replace_inner_loop, map_contains, map_find, h]
    · simp only [replace_inner_loop, if_neg h, ih]
      simp [map_contains, map_find, h]

/-- The graph `replace_node` is paired with when `old` is a node and `new` is not. -/
theorem replace_node_graph (g : graph N E) (old_data new_data : N)
    (hold : g.is_node old_data = true) (hnew : g.is_node new_data = false) :
    (g.replace_node old_data new_data).2 =
      ⟨set_insert new_data (set_erase old_data g.nodes_),
        match g.edges_ with
        | [] => []
        | outer_key :: _ =>
          if outer_key.1 = old_data then
            map_insert_node (new_data, map_at old_data [] g.edges_)
              (map_erase old_data g.edges_)
          else g.edges_⟩ := by
  unfold replace_node
  simp only [hnew, hold, Bool.false_eq_true, if_false, Bool.not_true]
  split
  · rfl
  · split <;> rfl

/-- The outcome of `replace_node` when `old` is a node and `new` is not: undefined when the
first source entry has `old` among its destination keys, true otherwise. -/
theorem replace_node_outcome (g : graph N E) (old_data new_data : N)
    (hold : g.is_node old_data = true) (hnew : g.is_node new_data = false) :
    (g.edges_ = [] → (g.replace_node old_data new_data).1 = .ok true) ∧
      (∀ s tail, g.edges_ = s :: tail → map_contains old_data s.2 = false →
        (g.replace_node old_data new_data).1 = .ok true) ∧
      (∀ s tail, g.edges_ = s :: tail → map_contains old_data s.2 = true →
        (g.replace_node old_data new_data).1 = .error .undefined) := by
  refine ⟨?_, ?_, ?_⟩
  · intro h
    simp [replace_node, hnew, hold, h]
  · intro s tail h hc
    simp [replace_node, hnew, hold, h, (replace_inner_loop_ok old_data s.2).2 hc]
  · intro s tail h hc
    simp [replace_node, hnew, hold, h, (replace_inner_loop_undefined old_data s.2).2 hc]

/-- The registry `replace_node` leaves when `old` is a node, `new` is not, and the inner loop
meets no destination key equal to `old` in the first source entry. -/
theorem replace_node_registry (g : graph N E) (old_data new_data : N)
    (hold : g.is_node old_data = true) (hnew : g.is_node new_data = false)
    (hclean : ∀ s tail, g.edges_ = s :: tail → map_contains old_data s.2 = false) :
    (g.replace_node old_data new_data).1 = .ok true ∧
      (g.replace_node old_data new_data).2.nodes_ =
        set_insert new_data (set_erase old_data g.nodes_) := by
  refine ⟨?_, by rw [replace_node_graph g old_data new_data hold hnew]⟩
  obtain ⟨h0, h1, _⟩ := replace_node_outcome g old_data new_data hold hnew
  cases h : g.edges_ with
  | nil => exact h0 h
  | cons s tail => exact h1 s tail h (hclean s tail h)

/-- When `old` is a node and `new` is not, in a graph whose registry is sorted and whose first
source entry does not have `old` among its destination keys, `replace_node(old, new)` returns
true; afterwards `nodes()` is strictly ascending and holds `new` together with the previous
nodes other than `old`, so `is_node(old)` is false, `is_node(new)` is true, every other node
is kept, and the number of nodes is unchanged. -/
theorem replace_node_renames_in_registry (g : graph N E) (hs : g.nodes.Pairwise (· < ·))
    (old_data new_data : N) (hold : g.is_node old_data = true)
    (hnew : g.is_node new_data = false)
    (hclean : ∀ s tail, g.edges_ = s :: tail → map_contains old_data s.2 = false) :
    (g.replace_node old_data new_data).1 = .ok true ∧
      (g.replace_node old_data new_data).2.nodes.Pairwise (· < ·) ∧
      (∀ v, v ∈ (g.replace_node old_data new_data).2.nodes ↔
        ((v ∈ g.nodes ∧ v ≠ old_data) ∨ v = new_data)) ∧
      (g.replace_node old_data new_data).2.is_node old_data = false ∧
      (g.replace_node old_data new_data).2.is_node new_data = true ∧
      (g.replace_node old_data new_data).2.nodes.length = g.nodes.length := by
  obtain ⟨h1, h2⟩ := replace_node_registry g old_data new_data hold hnew hclean
  have hmem : ∀ v, v ∈ (g.replace_node old_data new_data).2.nodes ↔
      ((v ∈ g.nodes ∧ v ≠ old_data) ∨ v = new_data) := by
    intro v
    simp only [nodes, h2, mem_set_insert, mem_set_erase]
  have hold_mem : old_data ∈ g.nodes_ := (is_node_iff g old_data).1 hold
  have hnew_mem : new_data ∉ g.nodes_ := by
    intro h
    rw [(is_node_iff g new_data).2 h] at hnew
    exact Bool.noConfusion hnew
  have hne : old_data ≠ new_data := fun h => hnew_mem (h ▸ hold_mem)
  refine ⟨h1, ?_, hmem, ?_, ?_, ?_⟩
  · simp only [nodes, h2]
    exact set_insert_pairwise _ _ (set_erase_pairwise _ _ hs)
  · rw [← Bool.not_eq_true, is_node_iff, hmem]
    rintro (⟨_, h⟩ | h)
    · exact h rfl
    · exact hne h
  · rw [is_node_iff, hmem]
    exact Or.inr rfl
  · have hnot : new_data ∉ set_erase old_data g.nodes_ := by
      rw [mem_set_erase]
      exact fun h => hnew_mem h.1
    simp only [nodes, h2, set_insert, if_neg hnot, length_sorted_insert]
    exact length_set_erase old_data g.nodes_ hs hold_mem

/-- C12: when both `old` and `new` are nodes, `replace_node(old, new)` returns false and the
graph after the call, nodes and edges, is the graph before it. -/
theorem replace_node_into_existing_node (g : graph N E) (old_data new_data : N)
    (_hold : g.is_node old_data = true) (hnew : g.is_node new_data = true) :
    g.replace_node old_data new_data = (.ok false, g) ∧
      (g.replace_node old_data new_data).2.nodes = g.nodes ∧
      ∀ a b w, (g.replace_node old_data new_data).2.stored a b w ↔ g.stored a b w := by
  have h : g.replace_node old_data new_data = (.ok false, g) := by
    simp [replace_node, hnew]
  rw [h]
  exact ⟨rfl, rfl, fun _ _ _ => Iff.rfl⟩

theorem insert_node_nodes_sorted (g : graph N E) (v : N) (h : g.nodes_.Pairwise (· < ·)) :
    (g.insert_node v).2.nodes_.Pairwise (· < ·) := by
  unfold insert_node
  split
  · exact set_insert_pairwise _ _ h
  · exact h

theorem insert_edge_nodes (g : graph N E) (src dst : N) (w : E) :
    (g.insert_edge src dst w).2.nodes_ = g.nodes_ := by
  unfold insert_edge
  split
  · rfl
  · split <;> rfl

theorem replace_node_nodes_sorted (g : graph N E) (old_data new_data : N)
    (h : g.nodes_.Pairwise (· < ·)) :
    (g.replace_node old_data new_data).2.nodes_.Pairwise (· < ·) := by
  have h1 := set_insert_pairwise new_data _ (set_erase_pairwise old_data _ h)
  unfold replace_node
  split
  · exact h
  · split
    · exact h
    · split
      · exact h1
      · dsimp only
        split <;> exact h1

theorem erase_node_nodes_sorted (g : graph N E) (v : N) (h : g.nodes_.Pairwise (· < ·)) :
    (g.erase_node v).2.nodes_.Pairwise (· < ·) := by
  unfold erase_node
  split
  · exact h
  · exact set_erase_pairwise _ _ h

theorem erase_edge_nodes_sorted (g : graph N E) (src dst : N) (w : E)
    (h : g.nodes_.Pairwise (· < ·)) :
    (g.erase_edge src dst w).2.nodes_.Pairwise (· < ·) := by
  unfold erase_edge
  split
  · exact h
  · split
    · exact h
    · exact h
    · split
      · exact h
      · split
        · split
          · exact h
          · simp only []
            split_ifs <;> first | exact h | exact erase_node_nodes_sorted _ _ h
        · exact h

theorem erase_edge_iter_nodes_sorted (g : graph N E) (i : iterator)
    (h : g.nodes_.Pairwise (· < ·)) : (g.erase_edge_iter i).2.nodes_.Pairwise (· < ·) := by
  unfold erase_edge_iter
  split
  · exact h
  · split
    · exact h
    · split
      · exact h
      · rename_i v _
        have h1 := erase_edge_nodes_sorted g v.from_ v.to_ v.weight h
        split
        · rename_i heq; rw [heq] at h1; exact h1
        · rename_i heq; rw [heq] at h1; exact h1
        · rename_i heq; rw [heq] at h1; exact h1

theorem erase_edge_loop_nodes_sorted (n : Nat) :
    ∀ (g : graph N E) (res s : iterator), g.nodes_.Pairwise (· < ·) →
      (erase_edge_loop n g res s).2.nodes_.Pairwise (· < ·) := by
  induction n with
  | zero => intro g res s h; exact h
  | succ n ih =>
    intro g res s h
    unfold erase_edge_loop
    have h1 := erase_edge_iter_nodes_sorted g res h
    split
    · split
      · rename_i heq
        rw [heq] at h1
        split
        · exact ih _ _ _ h1
        · exact h1
      · rename_i heq
        rw [heq] at h1
        exact h1
    · exact h

theorem foldl_insert_node_nodes_sorted (l : List N) :
    ∀ g : graph N E, g.nodes_.Pairwise (· < ·) →
      (l.foldl (fun g value => (g.insert_node value).2) g).nodes_.Pairwise (· < ·) := by
  induction l with
  | nil => intro g h; exact h
  | cons v t ih => intro g h; exact ih _ (insert_node_nodes_sorted g v h)

theorem copy_nodes_sorted (other : graph N E) : other.copy.nodes_.Pairwise (· < ·) := by
  have h0 := foldl_insert_node_nodes_sorted other.nodes (⟨[], []⟩ : graph N E) List.Pairwise.nil
  unfold copy
  simp only
  generalize other.nodes.foldl (fun g node => (g.insert_node node).2) (⟨[], []⟩ : graph N E)
    = g0 at h0
  have hw : ∀ (a b : N) (ws : List E) (g : graph N E), g.nodes_.Pairwise (· < ·) →
      (ws.foldl (fun (g : graph N E) weight =>
        (⟨g.nodes_, map_index a (map_index b (set_insert weight) []) [] g.edges_⟩ : graph N E))
          g).nodes_.Pairwise (· < ·) := by
    intro a b ws
    induction ws with
    | nil => intro g h; exact h
    | cons w t ih => intro g h; exact ih _ h
  have hd : ∀ (a : N) (dm : List (N × List E)) (g : graph N E), g.nodes_.Pairwise (· < ·) →
      (dm.foldl (fun (g : graph N E) dst_node => dst_node.2.foldl (fun (g : graph N E) weight =>
        (⟨g.nodes_, map_index a (map_index dst_node.1 (set_insert weight) []) [] g.edges_⟩ :
          graph N E)) g) g).nodes_.Pairwise (· < ·) := by
    intro a dm
    induction dm with
    | nil => intro g h; exact h
    | cons d t ih => intro g h; exact ih _ (hw a d.1 d.2 g h)
  generalize other.edges_ = es
  induction es generalizing g0 with
  | nil => exact h0
  | cons s t ih => exact ih _ (hd s.1 s.2 g0 h0)

theorem merge_replace_node_graph (g : graph N E) (old_data new_data : N) :
    (g.merge_replace_node old_data new_data).2 = g := by
  unfold merge_replace_node
  split <;> rfl

/-- C20: in every graph built by a constructor and changed by any sequence of `insert_node`,
`insert_edge`, `replace_node`, `erase_node`, `erase_edge` (in its three forms) and `clear`,
`nodes()` is strictly ascending, hence free of duplicates, and `is_node(v)` is true exactly
when `v` occurs in `nodes()`. -/
theorem reachable_nodes_strictly_ascending (g : graph N E) (h : g.reachable) :
    g.nodes.Pairwise (· < ·) ∧ g.nodes.Nodup ∧ ∀ v, g.is_node v = true ↔ v ∈ g.nodes := by
  have hsorted : g.nodes_.Pairwise (· < ·) := by
    induction h with
    | default => exact List.Pairwise.nil
    | of_list il => exact foldl_insert_node_nodes_sorted il _ List.Pairwise.nil
    | copy g _ _ => exact copy_nodes_sorted g
    | insert_node g v _ ih => exact insert_node_nodes_sorted g v ih
    | insert_edge g a b w _ ih => rw [insert_edge_nodes]; exact ih
    | replace_node g a b _ ih => exact replace_node_nodes_sorted g a b ih
    | erase_node g v _ ih => exact erase_node_nodes_sorted g v ih
    | erase_edge g a b w _ ih => exact erase_edge_nodes_sorted g a b w ih
    | erase_edge_iter g i _ ih => exact erase_edge_iter_nodes_sorted g i ih
    | erase_edge_range g i s _ ih => exact erase_edge_loop_nodes_sorted _ g i s ih
    | clear g _ _ => exact List.Pairwise.nil
    | merge_replace_node g a b _ ih => rw [merge_replace_node_graph]; exact ih
  refine ⟨hsorted, ?_, is_node_iff g⟩
  exact hsorted.imp (fun hlt => ne_of_lt hlt)

/-! ### Backward traversal -/

/-- C24: `insert_node(v)` always returns a value; it returns true exactly when `v` was not a
node; afterwards `v` is a node and the adjacency structure, hence every stored edge, is as
before; a second `insert_node(v)` returns false and leaves `nodes()` as the first call left
it. -/
theorem insert_node_adds_once (g : graph N E) (v : N) :
    ((g.insert_node v).1 = true ↔ g.is_node v = false) ∧
      (g.insert_node v).2.is_node v = true ∧
      (g.insert_node v).2.edges_ = g.edges_ ∧
      (∀ a b w, (g.insert_node v).2.stored a b w ↔ g.stored a b w) ∧
      ((g.insert_node v).2.insert_node v).1 = false ∧
      ((g.insert_node v).2.insert_node v).2.nodes = (g.insert_node v).2.nodes := by
  have hnode : (g.insert_node v).2.is_node v = true := by
    unfold insert_node
    by_cases h : g.is_node v = true
    · simp [h]
    · simp only [h, Bool.not_false, if_true]
      rw [is_node_iff]
      exact (mem_set_insert v v _).2 (Or.inr rfl)
  have hedges : (g.insert_node v).2.edges_ = g.edges_ := by
    unfold insert_node
    split <;> rfl
  have hsecond : (g.insert_node v).2.insert_node v = (false, (g.insert_node v).2) := by
    generalize (g.insert_node v).2 = g1 at hnode
    simp [insert_node, hnode]
  refine ⟨?_, hnode, hedges, ?_, ?_, ?_⟩
  · unfold insert_node
    by_cases h : g.is_node v = true <;> simp [h]
  · intro a b w
    simp only [stored, hedges]
  · rw [hsecond]
  · rw [hsecond]

theorem foldl_insert_node_spec (l : List N) :
    ∀ g : graph N E,
      (l.foldl (fun g value => (g.insert_node value).2) g).edges_ = g.edges_ ∧
        ∀ v, v ∈ (l.foldl (fun g value => (g.insert_node value).2) g).nodes_ ↔
          (v ∈ g.nodes_ ∨ v ∈ l) := by
  induction l with
  | nil => intro g; simp
  | cons x t ih =>
    intro g
    obtain ⟨h1, h2⟩ := ih (g.insert_node x).2
    have he : (g.insert_node x).2.edges_ = g.edges_ := by
      unfold insert_node; split <;> rfl
    have hm : ∀ v, v ∈ (g.insert_node x).2.nodes_ ↔ (v ∈ g.nodes_ ∨ v = x) := by
      intro v
      unfold insert_node
      split
      · exact mem_set_insert x v g.nodes_
      · rename_i hx
        have hxm : x ∈ g.nodes_ := by
          have : g.is_node x = true := by simpa using hx
          exact (is_node_iff g x).1 this
        constructor
        · exact Or.inl
        · rintro (h | h)
          · exact h
          · rw [h]; exact hxm
    refine ⟨by rw [List.foldl_cons, h1, he], ?_⟩
    intro v
    rw [List.foldl_cons, h2, hm, List.mem_cons]
    tauto

/-- C25: the graph constructed from a sequence `l` of node values has a strictly ascending
`nodes()` whose members are exactly the values of `l`, so that duplicates are collapsed and
the input order is immaterial, and it stores no edge. -/
theorem of_list_sorts_and_collapses (l : List N) :
    (of_list l : graph N E).nodes.Pairwise (· < ·) ∧
      (of_list l : graph N E).nodes.Nodup ∧
      (∀ v, v ∈ (of_list l : graph N E).nodes ↔ v ∈ l) ∧
      (of_list l : graph N E).edges_ = [] ∧
      ∀ a b w, ¬ (of_list l : graph N E).stored a b w := by
  have hs : (of_list l : graph N E).nodes_.Pairwise (· < ·) :=
    foldl_insert_node_nodes_sorted l _ List.Pairwise.nil
  obtain ⟨he, hm⟩ := foldl_insert_node_spec l (⟨[], []⟩ : graph N E)
  refine ⟨hs, hs.imp (fun hlt => ne_of_lt hlt), ?_, he, ?_⟩
  · intro v
    have := hm v
    simpa [of_list, nodes] using this
  · intro a b w h
    obtain ⟨s, hsm, _⟩ := h
    have he2 : (of_list l : graph N E).edges_ = [] := he
    rw [he2] at hsm
    simp at hsm

/-! ### Sorted maps under the operations -/

section map_ok_lemmas

variable {K V : Type} [LinearOrder K]

theorem map_ok_nil (P : V → Prop) : map_ok P ([] : List (K × V)) := by
  simp [map_ok]

theorem map_fst_sorted_insert (p : K × V) (m : List (K × V)) :
    (sorted_insert Prod.fst p m).map Prod.fst = sorted_insert id p.1 (m.map Prod.fst) := by
  induction m with
  | nil => simp [sorted_insert]
  | cons q t ih =>
    simp only [sorted_insert, List.map_cons, id]
    split
    · simp
    · simp [ih]

theorem map_fst_map_modify (k : K) (f : V → V) (m : List (K × V)) :
    (map_modify k f m).map Prod.fst = m.map Prod.fst := by
  simp only [map_modify, List.map_map]
  apply List.map_congr_left
  intro p _
  simp only [Function.comp]
  split <;> rfl

theorem not_mem_keys_of_not_contains (k : K) (m : List (K × V))
    (h : ¬ map_contains k m = true) : k ∉ m.map Prod.fst := by
  intro hk
  obtain ⟨p, hp, hpk⟩ := List.mem_map.1 hk
  exact h ((map_contains_iff k m).2 ⟨p, hp, hpk⟩)

theorem map_ok_erase (P : V → Prop) (k : K) (m : List (K × V)) (hm : map_ok P m) :
    map_ok P (map_erase k m) := by
  refine ⟨?_, ?_⟩
  · exact hm.1.sublist ((List.filter_sublist m).map Prod.fst)
  · intro p hp
    exact hm.2 p (List.mem_of_mem_filter hp)

theorem map_ok_modify (P : V → Prop) (k : K) (f : V → V) (m : List (K × V)) (hm : map_ok P m)
    (hf : ∀ v, (k, v) ∈ m → P (f v)) : map_ok P (map_modify k f m) := by
  refine ⟨by rw [map_fst_map_modify]; exact hm.1, ?_⟩
  intro p hp
  simp only [map_modify, List.mem_map] at hp
  obtain ⟨q, hq, rfl⟩ := hp
  split
  · rename_i hqk
    obtain ⟨q1, q2⟩ := q
    simp only at hqk
    subst hqk
    exact hf q2 hq
  · exact hm.2 q hq

theorem map_ok_sorted_insert (P : V → Prop) (p : K × V) (m : List (K × V)) (hm : map_ok P m)
    (hk : ¬ map_contains p.1 m = true) (hp : P p.2) :
    map_ok P (sorted_insert Prod.fst p m) := by
  refine ⟨?_, ?_⟩
  · rw [map_fst_sorted_insert]
    exact sorted_insert_pairwise p.1 _ hm.1 (not_mem_keys_of_not_contains p.1 m hk)
  · intro q hq
    rcases (mem_sorted_insert Prod.fst p q m).1 hq with h | h
    · rw [h]; exact hp
    · exact hm.2 q h

theorem map_ok_index (P : V → Prop) (k : K) (f : V → V) (dflt : V) (m : List (K × V))
    (hm : map_ok P m) (hf : ∀ v, (k, v) ∈ m → P (f v))
    (hd : ¬ map_contains k m = true → P (f dflt)) : map_ok P (map_index k f dflt m) := by
  unfold map_index
  split
  · exact map_ok_modify P k f m hm hf
  · rename_i hc
    exact map_ok_sorted_insert P (k, f dflt) m hm hc (hd hc)

theorem map_ok_insert_node (P : V → Prop) (p : K × V) (m : List (K × V)) (hm : map_ok P m)
    (hp : P p.2) : map_ok P (map_insert_node p m) := by
  unfold map_insert_node
  split
  · exact hm
  · rename_i hc
    exact map_ok_sorted_insert P p m hm hc hp

theorem map_ok_find (P : V → Prop) (k : K) (m : List (K × V)) (hm : map_ok P m) (v : V)
    (h : map_find k m = some v) : P v :=
  hm.2 (k, v) (map_find_mem k m v h)

theorem map_ok_at (P : V → Prop) (k : K) (dflt : V) (m : List (K × V)) (hm : map_ok P m)
    (hd : P dflt) : P (map_at k dflt m) := by
  unfold map_at
  cases h : map_find k m with
  | none => exact hd
  | some v => exact map_ok_find P k m hm v h

theorem map_find_of_ok (P : V → Prop) (k : K) (v : V) (m : List (K × V)) (hm : map_ok P m)
    (h : (k, v) ∈ m) : map_find k m = some v :=
  map_find_of_mem k v m hm.1 h

end map_ok_lemmas

section map_algebra

variable {K V : Type} [LinearOrder K]

theorem map_erase_modify (k : K) (f : V → V) (m : List (K × V)) :
    map_erase k (map_modify k f m) = map_erase k m := by
  induction m with
  | nil => rfl
  | cons q t ih =>
    simp only [map_erase, map_modify, List.map_cons, ne_eq, decide_not] at ih ⊢
    by_cases hq : q.1 = k
    · simp [List.filter_cons, hq, ih]
    · simp [List.filter_cons, hq, ih]

theorem map_erase_sorted_insert (k : K) (v : V) (m : List (K × V)) :
    map_erase k (sorted_insert Prod.fst (k, v) m) = map_erase k m := by
  induction m with
  | nil => simp [sorted_insert, map_erase]
  | cons q t ih =>
    simp only [sorted_insert]
    split
    · simp [map_erase, List.filter_cons]
    · simp only [map_erase, List.filter_cons] at ih ⊢
      rw [ih]

theorem map_erase_index (k : K) (f : V → V) (dflt : V) (m : List (K × V)) :
    map_erase k (map_index k f dflt m) = map_erase k m := by
  unfold map_index
  split
  · exact map_erase_modify k f m
  · exact map_erase_sorted_insert k (f dflt) m

theorem map_contains_modify (k k1 : K) (f : V → V) (m : List (K × V)) :
    map_contains k (map_modify k1 f m) = map_contains k m := by
  have h : map_contains k (map_modify k1 f m) = true ↔ map_contains k m = true := by
    rw [map_contains_iff, map_contains_iff]
    constructor
    · rintro ⟨p, hp, hpk⟩
      have : k ∈ (map_modify k1 f m).map Prod.fst := List.mem_map.2 ⟨p, hp, hpk⟩
      rw [map_fst_map_modify] at this
      obtain ⟨q, hq, hqk⟩ := List.mem_map.1 this
      exact ⟨q, hq, hqk⟩
    · rintro ⟨p, hp, hpk⟩
      have : k ∈ (map_modify k1 f m).map Prod.fst := by
        rw [map_fst_map_modify]; exact List.mem_map.2 ⟨p, hp, hpk⟩
      obtain ⟨q, hq, hqk⟩ := List.mem_map.1 this
      exact ⟨q, hq, hqk⟩
  cases h1 : map_contains k (map_modify k1 f m) <;> cases h2 : map_contains k m <;> simp_all

theorem map_contains_sorted_insert (k : K) (v : V) (m : List (K × V)) :
    map_contains k (sorted_insert Prod.fst (k, v) m) = true := by
  rw [map_contains_iff]
  exact ⟨(k, v), (mem_sorted_insert _ _ _ _).2 (Or.inl rfl), rfl⟩

theorem map_modify_modify (k : K) (f g : V → V) (m : List (K × V)) :
    map_modify k f (map_modify k g m) = map_modify k (f ∘ g) m := by
  simp only [map_modify, List.map_map]
  apply List.map_congr_left
  intro p _
  simp only [Function.comp]
  by_cases hp : p.1 = k <;> simp [hp]

theorem map_modify_sorted_insert (k : K) (f : V → V) (v : V) (m : List (K × V)) :
    map_modify k f (sorted_insert Prod.fst (k, v) m) =
      sorted_insert Prod.fst (k, f v) (map_modify k f m) := by
  induction m with
  | nil => simp [sorted_insert, map_modify]
  | cons q t ih =>
    simp only [map_modify, List.map_cons] at ih ⊢
    by_cases hlt : k < q.1
    · have hq : (if q.1 = k then (q.1, f q.2) else q).1 = q.1 := by split <;> rfl
      simp only [sorted_insert, hlt, if_true, List.map_cons, hq]
    · have hq : (if q.1 = k then (q.1, f q.2) else q).1 = q.1 := by split <;> rfl
      simp only [sorted_insert, hlt, if_false, List.map_cons, hq]
      rw [ih]

theorem map_index_index (k : K) (f g : V → V) (dflt : V) (m : List (K × V)) :
    map_index k f dflt (map_index k g dflt m) = map_index k (f ∘ g) dflt m := by
  by_cases hc : map_contains k m = true
  · simp only [map_index, hc, if_true, map_contains_modify, map_modify_modify]
  · have hno := map_modify_of_not_contains k f m hc
    simp only [map_index, hc, if_false, map_contains_sorted_insert, if_true,
      map_modify_sorted_insert, hno, Bool.false_eq_true, Function.comp]

end map_algebra

/-! ### Every reachable graph is well kept -/

theorem well_kept_iff (g : graph N E) : g.well_kept ↔ g.sorted ∧ g.no_empty_weights := by
  unfold well_kept sorted no_empty_weights map_ok set_ok
  constructor
  · rintro ⟨h1, h2, h3⟩
    exact ⟨⟨h1, h2, fun s hs => ⟨(h3 s hs).1, fun d hd => ((h3 s hs).2 d hd).1⟩⟩,
      fun s hs d hd => ((h3 s hs).2 d hd).2⟩
  · rintro ⟨⟨h1, h2, h3⟩, h4⟩
    exact ⟨h1, h2, fun s hs => ⟨(h3 s hs).1, fun d hd => ⟨(h3 s hs).2 d hd, h4 s hs d hd⟩⟩⟩

theorem set_ok_insert (w : E) (ws : List E) (h : ws.Pairwise (· < ·)) :
    set_ok (set_insert w ws) := by
  refine ⟨set_insert_pairwise w ws h, ?_⟩
  intro hnil
  have := (mem_set_insert w w ws).2 (Or.inr rfl)
  rw [hnil] at this
  simp at this

theorem length_le_set_erase (w : E) (ws : List E) (h : ws.Pairwise (· < ·)) :
    ws.length ≤ (set_erase w ws).length + 1 := by
  by_cases hw : w ∈ ws
  · rw [length_set_erase w ws h hw]
  · have hall : ∀ y ∈ ws, decide (y ≠ w) = true := by
      intro y hy
      simp only [ne_eq, decide_eq_true_eq]
      intro hyw
      exact hw (hyw ▸ hy)
    have : set_erase w ws = ws := List.filter_eq_self.2 hall
    rw [this]
    omega

theorem map_ok_map_values {K V : Type} [LinearOrder K] (P : V → Prop) (m : List (K × V))
    (hm : map_ok P m) (φ : K × V → K × V) (hk : ∀ p, (φ p).1 = p.1)
    (hP : ∀ p ∈ m, P (φ p).2) : map_ok P (m.map φ) := by
  refine ⟨?_, ?_⟩
  · have : (m.map φ).map Prod.fst = m.map Prod.fst := by
      rw [List.map_map]
      apply List.map_congr_left
      intro p _
      exact hk p
    rw [this]
    exact hm.1
  · intro p hp
    obtain ⟨q, hq, rfl⟩ := List.mem_map.1 hp
    exact hP q hq

theorem adj_ok_insert (es : List (N × List (N × List E)))
    (h : map_ok (map_ok (set_ok (E := E))) es) (src dst : N) (w : E) :
    map_ok (map_ok (set_ok (E := E)))
      (map_index src (map_index dst (set_insert w) []) [] es) := by
  have h2 : ∀ dm : List (N × List E), map_ok set_ok dm →
      map_ok set_ok (map_index dst (set_insert w) [] dm) := by
    intro dm hdm
    exact map_ok_index _ dst _ [] dm hdm (fun ws hws => set_ok_insert w ws (hdm.2 _ hws).1)
      (fun _ => set_ok_insert w [] List.Pairwise.nil)
  exact map_ok_index _ src _ [] es h (fun dm hdm => h2 dm (h.2 _ hdm))
    (fun _ => h2 [] (map_ok_nil _))

theorem insert_node_well_kept (g : graph N E) (v : N) (h : g.well_kept) :
    (g.insert_node v).2.well_kept := by
  unfold insert_node
  split
  · exact ⟨set_insert_pairwise _ _ h.1, h.2⟩
  · exact h

theorem insert_edge_well_kept (g : graph N E) (src dst : N) (w : E) (h : g.well_kept) :
    (g.insert_edge src dst w).2.well_kept := by
  unfold insert_edge
  split
  · exact h
  · split
    · exact ⟨h.1, adj_ok_insert g.edges_ h.2 src dst w⟩
    · exact h

theorem erase_node_well_kept (g : graph N E) (v : N) (h : g.well_kept) :
    (g.erase_node v).2.well_kept := by
  by_cases hv : g.is_node v = true
  · rw [erase_node_eq g v hv]
    refine ⟨set_erase_pairwise _ _ h.1, ?_⟩
    have h1 := map_ok_erase _ v g.edges_ h.2
    refine map_ok_map_values _ _ h1 _ ?_ ?_
    · intro p; split <;> rfl
    · intro p hp
      split
      · exact map_ok_erase _ v p.2 (h1.2 p hp)
      · exact h1.2 p hp
  · have : g.erase_node v = (false, g) := by simp [erase_node, hv]
    rw [this]
    exact h

theorem erase_weight_well_kept (g : graph N E) (src dst : N) (w : E) (h : g.well_kept)
    (hlen : (map_at dst [] (map_at src [] g.edges_)).length > 1) :
    (⟨g.nodes_, map_index src (map_index dst (set_erase w) []) [] g.edges_⟩ :
      graph N E).well_kept := by
  refine ⟨h.1, ?_⟩
  have hsrc : map_contains src g.edges_ = true := by
    by_contra hc
    have hnone : map_find src g.edges_ = none := by
      simpa [map_contains] using hc
    simp [map_at, hnone, map_find] at hlen
  refine map_ok_index _ src _ [] g.edges_ h.2 ?_ (fun hc => absurd hsrc hc)
  intro dm hdm
  have hdm_ok : map_ok set_ok dm := h.2.2 _ hdm
  have hat : map_at src [] g.edges_ = dm := by
    simp [map_at, map_find_of_ok _ src dm g.edges_ h.2 hdm]
  rw [hat] at hlen
  have hdst : map_contains dst dm = true := by
    by_contra hc
    have hnone : map_find dst dm = none := by
      simpa [map_contains] using hc
    simp [map_at, hnone] at hlen
  refine map_ok_index _ dst _ [] dm hdm_ok ?_ (fun hc => absurd hdst hc)
  intro ws hws
  have hws_ok : set_ok ws := hdm_ok.2 _ hws
  have hat2 : map_at dst [] dm = ws := by
    simp [map_at, map_find_of_ok _ dst ws dm hdm_ok hws]
  rw [hat2] at hlen
  refine ⟨set_erase_pairwise w ws hws_ok.1, ?_⟩
  intro hnil
  have := length_le_set_erase w ws hws_ok.1
  rw [hnil] at this
  simp at this
  omega

theorem erase_dst_well_kept (g : graph N E) (src dst : N) (w : E) (h : g.well_kept) :
    (⟨g.nodes_, map_index src (map_erase dst) []
      (map_index src (map_index dst (set_erase w) []) [] g.edges_)⟩ : graph N E).well_kept := by
  refine ⟨h.1, ?_⟩
  rw [map_index_index]
  have hfun : (map_erase dst ∘ map_index dst (set_erase w) ([] : List E)) =
      (map_erase dst : List (N × List E) → List (N × List E)) := by
    funext dm
    exact map_erase_index dst _ _ dm
  rw [hfun]
  exact map_ok_index _ src _ [] g.edges_ h.2 (fun dm hdm => map_ok_erase _ dst dm (h.2.2 _ hdm))
    (fun _ => map_ok_erase _ dst [] (map_ok_nil _))

theorem erase_edge_well_kept (g : graph N E) (src dst : N) (w : E) (h : g.well_kept) :
    (g.erase_edge src dst w).2.well_kept := by
  have hg1 := erase_dst_well_kept g src dst w h
  unfold erase_edge
  split
  · exact h
  · split
    · exact h
    · exact h
    · split
      · exact h
      · split
        · split
          · rename_i hlen
            exact erase_weight_well_kept g src dst w h hlen
          · simp only []
            split_ifs <;>
              first
              | exact h
              | exact hg1
              | exact erase_node_well_kept _ _ hg1
              | exact erase_node_well_kept _ _ h
        · exact h

theorem replace_node_well_kept (g : graph N E) (old_data new_data : N) (h : g.well_kept) :
    (g.replace_node old_data new_data).2.well_kept := by
  have h1 := set_insert_pairwise new_data _ (set_erase_pairwise old_data _ h.1)
  unfold replace_node
  split
  · exact h
  · split
    · exact h
    · split
      · exact ⟨h1, map_ok_nil _⟩
      · rename_i outer_key _ _
        have h2 : map_ok (map_ok (fun ws : List E => ws.Pairwise (· < ·) ∧ ws ≠ []))
            (if outer_key.1 = old_data then
              map_insert_node (new_data, map_at old_data [] g.edges_)
                (map_erase old_data g.edges_)
            else g.edges_) := by
          split
          · exact map_ok_insert_node _ _ _ (map_ok_erase _ old_data g.edges_ h.2)
              (map_ok_at _ old_data [] g.edges_ h.2 (map_ok_nil _))
          · exact h.2
        dsimp only
        split <;> exact ⟨h1, h2⟩

theorem erase_edge_iter_well_kept (g : graph N E) (i : iterator) (h : g.well_kept) :
    (g.erase_edge_iter i).2.well_kept := by
  unfold erase_edge_iter
  split
  · exact h
  · split
    · exact h
    · split
      · exact h
      · rename_i v _
        have h1 := erase_edge_well_kept g v.from_ v.to_ v.weight h
        split
        · rename_i heq; rw [heq] at h1; exact h1
        · rename_i heq; rw [heq] at h1; exact h1
        · rename_i heq; rw [heq] at h1; exact h1

theorem erase_edge_loop_well_kept (n : Nat) :
    ∀ (g : graph N E) (res s : iterator), g.well_kept →
      (erase_edge_loop n g res s).2.well_kept := by
  induction n with
  | zero => intro g res s h; exact h
  | succ n ih =>
    intro g res s h
    unfold erase_edge_loop
    have h1 := erase_edge_iter_well_kept g res h
    split
    · split
      · rename_i heq
        rw [heq] at h1
        split
        · exact ih _ _ _ h1
        · exact h1
      · rename_i heq
        rw [heq] at h1
        exact h1
    · exact h

theorem foldl_insert_node_well_kept (l : List N) :
    ∀ g : graph N E, g.well_kept →
      (l.foldl (fun g value => (g.insert_node value).2) g).well_kept := by
  induction l with
  | nil => intro g h; exact h
  | cons v t ih => intro g h; exact ih _ (insert_node_well_kept g v h)

theorem copy_well_kept (other : graph N E) : other.copy.well_kept := by
  have h0 := foldl_insert_node_well_kept other.nodes (⟨[], []⟩ : graph N E)
    ⟨List.Pairwise.nil, map_ok_nil _⟩
  unfold copy
  simp only
  generalize other.nodes.foldl (fun g node => (g.insert_node node).2) (⟨[], []⟩ : graph N E)
    = g0 at h0
  have hw : ∀ (a b : N) (ws : List E) (g : graph N E), g.well_kept →
      (ws.foldl (fun (g : graph N E) weight =>
        (⟨g.nodes_, map_index a (map_index b (set_insert weight) []) [] g.edges_⟩ : graph N E))
          g).well_kept := by
    intro a b ws
    induction ws with
    | nil => intro g h; exact h
    | cons w t ih => intro g h; exact ih _ ⟨h.1, adj_ok_insert g.edges_ h.2 a b w⟩
  have hd : ∀ (a : N) (dm : List (N × List E)) (g : graph N E), g.well_kept →
      (dm.foldl (fun (g : graph N E) dst_node => dst_node.2.foldl (fun (g : graph N E) weight =>
        (⟨g.nodes_, map_index a (map_index dst_node.1 (set_insert weight) []) [] g.edges_⟩ :
          graph N E)) g) g).well_kept := by
    intro a dm
    induction dm with
    | nil => intro g h; exact h
    | cons d t ih => intro g h; exact ih _ (hw a d.1 d.2 g h)
  generalize other.edges_ = es
  induction es generalizing g0 with
  | nil => exact h0
  | cons s t ih => exact ih _ (hd s.1 s.2 g0 h0)

/-- Every graph built by a constructor and changed by the modifiers is sorted at every
level and holds no empty weight set. -/
theorem reachable_well_kept (g : graph N E) (h : g.reachable) : g.well_kept := by
  induction h with
  | default => exact ⟨List.Pairwise.nil, map_ok_nil _⟩
  | of_list il => exact foldl_insert_node_well_kept il _ ⟨List.Pairwise.nil, map_ok_nil _⟩
  | copy g _ _ => exact copy_well_kept g
  | insert_node g v _ ih => exact insert_node_well_kept g v ih
  | insert_edge g a b w _ ih => exact insert_edge_well_kept g a b w ih
  | replace_node g a b _ ih => exact replace_node_well_kept g a b ih
  | erase_node g v _ ih => exact erase_node_well_kept g v ih
  | erase_edge g a b w _ ih => exact erase_edge_well_kept g a b w ih
  | erase_edge_iter g i _ ih => exact erase_edge_iter_well_kept g i ih
  | erase_edge_range g i s _ ih => exact erase_edge_loop_well_kept _ g i s ih
  | clear g _ _ => exact ⟨List.Pairwise.nil, map_ok_nil _⟩
  | merge_replace_node g a b _ ih => rw [merge_replace_node_graph]; exact ih

/-! ### weights, connections, is_connected -/

/-- On nodes of a well kept graph, `weights` returns the weight set found through the two
lookups: strictly ascending, with exactly the weights of the stored edges from `src` to
`dst`. -/
theorem weights_spec (g : graph N E) (hk : g.well_kept) (src dst : N)
    (hsrc : g.is_node src = true) (hdst : g.is_node dst = true) :
    ∃ ws, g.weights src dst = .ok ws ∧ ws.Pairwise (· < ·) ∧
      (∀ w, w ∈ ws ↔ g.stored src dst w) := by
  have hs : g.sorted := ((well_kept_iff g).1 hk).1
  cases h1 : map_find src g.edges_ with
  | none =>
    refine ⟨[], by simp [weights, hsrc, hdst, h1], List.Pairwise.nil, ?_⟩
    intro w
    constructor
    · intro h; simp at h
    · intro hst
      obtain ⟨dm, ws, h2, _, _⟩ := lookup_of_stored g hs src dst w hst
      rw [h1] at h2
      cases h2
  | some dm =>
    have hdm : map_ok set_ok dm := map_ok_find _ src g.edges_ hk.2 dm h1
    cases h2 : map_find dst dm with
    | none =>
      refine ⟨[], by simp [weights, hsrc, hdst, h1, h2], List.Pairwise.nil, ?_⟩
      intro w
      constructor
      · intro h; simp at h
      · intro hst
        obtain ⟨dm1, ws, h3, h4, _⟩ := lookup_of_stored g hs src dst w hst
        rw [h1] at h3
        cases h3
        rw [h2] at h4
        cases h4
    | some ws =>
      refine ⟨ws, by simp [weights, hsrc, hdst, h1, h2], (map_ok_find _ dst dm hdm ws h2).1, ?_⟩
      intro w
      constructor
      · intro hw
        exact stored_of_lookup g src dst w dm ws h1 h2 hw
      · intro hst
        obtain ⟨dm1, ws1, h3, h4, hw⟩ := lookup_of_stored g hs src dst w hst
        rw [h1] at h3
        cases h3
        rw [h2] at h4
        cases h4
        exact hw

/-- C21: in every reachable graph, `weights(src, dst)` ends in the `std::runtime_error` exactly
when `src` or `dst` is not a node; otherwise it returns a strictly ascending, duplicate-free
sequence that contains `w` exactly when the edge `(src, dst, w)` is stored, which is the empty
sequence when no edge from `src` to `dst` is stored. -/
theorem weights_of_reachable (g : graph N E) (h : g.reachable) (src dst : N) :
    (g.weights src dst = .error .runtime_error ↔
        (g.is_node src = false ∨ g.is_node dst = false)) ∧
      (g.is_node src = true → g.is_node dst = true →
        ∃ ws, g.weights src dst = .ok ws ∧ ws.Pairwise (· < ·) ∧ ws.Nodup ∧
          (∀ w, w ∈ ws ↔ g.stored src dst w) ∧
          ((∀ w, ¬ g.stored src dst w) → ws = [])) := by
  have hk := reachable_well_kept g h
  constructor
  · by_cases hsrc : g.is_node src = true
    · by_cases hdst : g.is_node dst = true
      · obtain ⟨ws, hws, _⟩ := weights_spec g hk src dst hsrc hdst
        rw [hws]
        simp [hsrc, hdst]
      · simp [weights, hdst]
    · simp [weights, hsrc]
  · intro hsrc hdst
    obtain ⟨ws, hws, hp, hm⟩ := weights_spec g hk src dst hsrc hdst
    refine ⟨ws, hws, hp, hp.imp (fun hlt => ne_of_lt hlt), hm, ?_⟩
    intro hno
    apply List.eq_nil_iff_forall_not_mem.2
    intro w hw
    exact hno w ((hm w).1 hw)

/-- C22: in every reachable graph, `connections(src)` ends in the `std::runtime_error` exactly
when `src` is not a node; otherwise it returns a strictly ascending, duplicate-free sequence
that contains `d` exactly when some edge `(src, d, w)` is stored. -/
theorem connections_of_reachable (g : graph N E) (h : g.reachable) (src : N) :
    (g.connections src = .error .runtime_error ↔ g.is_node src = false) ∧
      (g.is_node src = true →
        ∃ ds, g.connections src = .ok ds ∧ ds.Pairwise (· < ·) ∧ ds.Nodup ∧
          ∀ d, d ∈ ds ↔ ∃ w, g.stored src d w) := by
  have hk := reachable_well_kept g h
  have hs : g.sorted := ((well_kept_iff g).1 hk).1
  have key : g.is_node src = true →
      ∃ ds, g.connections src = .ok ds ∧ ds.Pairwise (· < ·) ∧
        ∀ d, d ∈ ds ↔ ∃ w, g.stored src d w := by
    intro hsrc
    cases h1 : map_find src g.edges_ with
    | none =>
      refine ⟨[], by simp [connections, hsrc, h1], List.Pairwise.nil, ?_⟩
      intro d
      constructor
      · intro hd; simp at hd
      · rintro ⟨w, hst⟩
        obtain ⟨dm, ws, h2, _, _⟩ := lookup_of_stored g hs src d w hst
        rw [h1] at h2
        cases h2
    | some dm =>
      have hdm : map_ok set_ok dm := map_ok_find _ src g.edges_ hk.2 dm h1
      refine ⟨dm.map Prod.fst, by simp [connections, hsrc, h1], hdm.1, ?_⟩
      intro d
      constructor
      · intro hd
        obtain ⟨p, hp, hpd⟩ := List.mem_map.1 hd
        obtain ⟨w, hw⟩ := List.exists_mem_of_ne_nil _ (hdm.2 p hp).2
        exact ⟨w, (src, dm), map_find_mem _ _ _ h1, rfl, p, hp, hpd, hw⟩
      · rintro ⟨w, hst⟩
        obtain ⟨dm1, ws, h2, h3, _⟩ := lookup_of_stored g hs src d w hst
        rw [h1] at h2
        cases h2
        exact List.mem_map.2 ⟨(d, ws), map_find_mem _ _ _ h3, rfl⟩
  constructor
  · by_cases hsrc : g.is_node src = true
    · obtain ⟨ds, hds, _⟩ := key hsrc
      rw [hds]
      simp [hsrc]
    · simp [connections, hsrc]
  · intro hsrc
    obtain ⟨ds, hds, hp, hm⟩ := key hsrc
    exact ⟨ds, hds, hp, hp.imp (fun hlt => ne_of_lt hlt), hm⟩

/-- C23: in every reachable graph, `is_connected(src, dst)` ends in the `std::runtime_error`
exactly when `src` or `dst` is not a node; otherwise it returns a value, which is true exactly
when some edge `(src, dst, w)` is stored, that is exactly when `weights(src, dst)` is not
empty. -/
theorem is_connected_of_reachable (g : graph N E) (h : g.reachable) (src dst : N) :
    (g.is_connected src dst = .error .runtime_error ↔
        (g.is_node src = false ∨ g.is_node dst = false)) ∧
      (g.is_node src = true → g.is_node dst = true →
        ∃ b, g.is_connected src dst = .ok b ∧
          (b = true ↔ ∃ w, g.stored src dst w) ∧
          (b = true ↔ ∃ ws, g.weights src dst = .ok ws ∧ ws ≠ [])) := by
  have hk := reachable_well_kept g h
  have hs : g.sorted := ((well_kept_iff g).1 hk).1
  have key : g.is_node src = true → g.is_node dst = true →
      ∃ b, g.is_connected src dst = .ok b ∧ (b = true ↔ ∃ w, g.stored src dst w) := by
    intro hsrc hdst
    cases h1 : map_find src g.edges_ with
    | none =>
      refine ⟨false, is_connected_of_no_source g src dst hsrc hdst h1, ?_⟩
      constructor
      · intro hb; cases hb
      · rintro ⟨w, hst⟩
        obtain ⟨dm, ws, h2, _, _⟩ := lookup_of_stored g hs src dst w hst
        rw [h1] at h2
        cases h2
    | some dm =>
      have hdm : map_ok set_ok dm := map_ok_find _ src g.edges_ hk.2 dm h1
      refine ⟨map_contains dst dm, is_connected_of_lookup g src dst hsrc hdst dm h1, ?_⟩
      constructor
      · intro hc
        obtain ⟨p, hp, hpd⟩ := (map_contains_iff dst dm).1 hc
        obtain ⟨w, hw⟩ := List.exists_mem_of_ne_nil _ (hdm.2 p hp).2
        exact ⟨w, (src, dm), map_find_mem _ _ _ h1, rfl, p, hp, hpd, hw⟩
      · rintro ⟨w, hst⟩
        obtain ⟨dm1, ws, h2, h3, _⟩ := lookup_of_stored g hs src dst w hst
        rw [h1] at h2
        cases h2
        simp [map_contains, h3]
  constructor
  · by_cases hsrc : g.is_node src = true
    · by_cases hdst : g.is_node dst = true
      · obtain ⟨b, hb, _⟩ := key hsrc hdst
        rw [hb]
        simp [hsrc, hdst]
      · simp [is_connected, hdst]
    · simp [is_connected, hsrc]
  · intro hsrc hdst
    obtain ⟨b, hb, hiff⟩ := key hsrc hdst
    obtain ⟨ws, hws, _, hm⟩ := weights_spec g hk src dst hsrc hdst
    refine ⟨b, hb, hiff, ?_⟩
    rw [hiff]
    constructor
    · rintro ⟨w, hst⟩
      refine ⟨ws, hws, ?_⟩
      intro hnil
      have := (hm w).2 hst
      rw [hnil] at this
      simp at this
    · rintro ⟨ws1, hws1, hne⟩
      rw [hws] at hws1
      cases hws1
      obtain ⟨w, hw⟩ := List.exists_mem_of_ne_nil _ hne
      exact ⟨w, (hm w).1 hw⟩

/-! ### Copy construction -/

theorem pairwise_lt_ext {K : Type} [LinearOrder K] (l1 l2 : List K)
    (h1 : l1.Pairwise (· < ·)) (h2 : l2.Pairwise (· < ·)) (h : ∀ a, a ∈ l1 ↔ a ∈ l2) :
    l1 = l2 := by
  have n1 : l1.Nodup := h1.imp (fun hlt => ne_of_lt hlt)
  have n2 : l2.Nodup := h2.imp (fun hlt => ne_of_lt hlt)
  exact List.eq_of_perm_of_sorted ((List.perm_ext_iff_of_nodup n1 n2).2 h) h1 h2

theorem sorted_insert_last {K : Type} [LinearOrder K] (x : K) (l : List K)
    (h : ∀ y ∈ l, y < x) : sorted_insert id x l = l ++ [x] := by
  induction l with
  | nil => rfl
  | cons b t ih =>
    have hb : ¬ x < b := not_lt.2 (le_of_lt (h b (List.mem_cons_self _ _)))
    simp only [sorted_insert, id, hb, if_false, List.cons_append]
    rw [ih (fun y hy => h y (List.mem_cons_of_mem _ hy))]

/-- Inserting the values of an ascending sequence one after the other, each greater than all
nodes present, appends them to the registry. -/
theorem foldl_insert_node_ascending (l : List N) :
    ∀ g : graph N E, (g.nodes_ ++ l).Pairwise (· < ·) →
      (l.foldl (fun g value => (g.insert_node value).2) g).nodes_ = g.nodes_ ++ l := by
  induction l with
  | nil => intro g _; simp
  | cons x t ih =>
    intro g hp
    have hlt : ∀ y ∈ g.nodes_, y < x := by
      intro y hy
      exact (List.pairwise_append.1 hp).2.2 y hy x (List.mem_cons_self _ _)
    have hx : x ∉ g.nodes_ := fun hxm => lt_irrefl x (hlt x hxm)
    have hnode : g.is_node x = false := by
      rw [← Bool.not_eq_true, is_node_iff]; exact hx
    have hins : (g.insert_node x).2.nodes_ = g.nodes_ ++ [x] := by
      simp only [insert_node, hnode, Bool.not_false, if_true, set_insert, if_neg hx]
      exact sorted_insert_last x g.nodes_ hlt
    rw [List.foldl_cons, ih _ (by rw [hins]; simpa using hp), hins]
    simp

/-- The three nested loops of the copy constructor leave the registry alone and store, besides
what was stored, exactly the edges of the adjacency structure they run over. -/
theorem copy_edges_spec (es : List (N × List (N × List E))) :
    ∀ g0 : graph N E,
      (es.foldl (fun (g : graph N E) src_nodes =>
        src_nodes.2.foldl (fun (g : graph N E) dst_node =>
          dst_node.2.foldl (fun (g : graph N E) weight =>
            (⟨g.nodes_, map_index src_nodes.1 (map_index dst_node.1 (set_insert weight) []) []
              g.edges_⟩ : graph N E)) g) g) g0).nodes_ = g0.nodes_ ∧
      ∀ x y z, (es.foldl (fun (g : graph N E) src_nodes =>
        src_nodes.2.foldl (fun (g : graph N E) dst_node =>
          dst_node.2.foldl (fun (g : graph N E) weight =>
            (⟨g.nodes_, map_index src_nodes.1 (map_index dst_node.1 (set_insert weight) []) []
              g.edges_⟩ : graph N E)) g) g) g0).stored x y z ↔
        (g0.stored x y z ∨ ∃ s ∈ es, s.1 = x ∧ ∃ d ∈ s.2, d.1 = y ∧ z ∈ d.2) := by
  have hw : ∀ (a b : N) (ws : List E) (g : graph N E),
      (ws.foldl (fun (g : graph N E) weight =>
        (⟨g.nodes_, map_index a (map_index b (set_insert weight) []) [] g.edges_⟩ : graph N E))
          g).nodes_ = g.nodes_ ∧
      ∀ x y z, (ws.foldl (fun (g : graph N E) weight =>
        (⟨g.nodes_, map_index a (map_index b (set_insert weight) []) [] g.edges_⟩ : graph N E))
          g).stored x y z ↔ (g.stored x y z ∨ (x = a ∧ y = b ∧ z ∈ ws)) := by
    intro a b ws
    induction ws with
    | nil => intro g; simp
    | cons w t ih =>
      intro g
      obtain ⟨h1, h2⟩ := ih ⟨g.nodes_, map_index a (map_index b (set_insert w) []) [] g.edges_⟩
      refine ⟨by rw [List.foldl_cons, h1], ?_⟩
      intro x y z
      rw [List.foldl_cons, h2, stored_after_insert, List.mem_cons]
      tauto
  have hd : ∀ (a : N) (dm : List (N × List E)) (g : graph N E),
      (dm.foldl (fun (g : graph N E) dst_node => dst_node.2.foldl (fun (g : graph N E) weight =>
        (⟨g.nodes_, map_index a (map_index dst_node.1 (set_insert weight) []) [] g.edges_⟩ :
          graph N E)) g) g).nodes_ = g.nodes_ ∧
      ∀ x y z, (dm.foldl (fun (g : graph N E) dst_node =>
        dst_node.2.foldl (fun (g : graph N E) weight =>
          (⟨g.nodes_, map_index a (map_index dst_node.1 (set_insert weight) []) [] g.edges_⟩ :
            graph N E)) g) g).stored x y z ↔
        (g.stored x y z ∨ (x = a ∧ ∃ d ∈ dm, d.1 = y ∧ z ∈ d.2)) := by
    intro a dm
    induction dm with
    | nil => intro g; simp
    | cons d t ih =>
      intro g
      obtain ⟨h1, h2⟩ := ih (d.2.foldl (fun (g : graph N E) weight =>
        (⟨g.nodes_, map_index a (map_index d.1 (set_insert weight) []) [] g.edges_⟩ :
          graph N E)) g)
      obtain ⟨h3, h4⟩ := hw a d.1 d.2 g
      refine ⟨by rw [List.foldl_cons, h1, h3], ?_⟩
      intro x y z
      rw [List.foldl_cons, h2, h4]
      simp only [List.mem_cons, exists_eq_or_imp]
      constructor
      · rintro ((h | ⟨hx, hy, hz⟩) | ⟨hx, h⟩)
        · exact Or.inl h
        · exact Or.inr ⟨hx, Or.inl ⟨hy.symm, hz⟩⟩
        · exact Or.inr ⟨hx, Or.inr h⟩
      · rintro (h | ⟨hx, (⟨hy, hz⟩ | h)⟩)
        · exact Or.inl (Or.inl h)
        · exact Or.inl (Or.inr ⟨hx, hy.symm, hz⟩)
        · exact Or.inr ⟨hx, h⟩
  induction es with
  | nil => intro g0; simp
  | cons s t ih =>
    intro g0
    obtain ⟨h1, h2⟩ := ih (s.2.foldl (fun (g : graph N E) dst_node =>
      dst_node.2.foldl (fun (g : graph N E) weight =>
        (⟨g.nodes_, map_index s.1 (map_index dst_node.1 (set_insert weight) []) [] g.edges_⟩ :
          graph N E)) g) g0)
    obtain ⟨h3, h4⟩ := hd s.1 s.2 g0
    refine ⟨by rw [List.foldl_cons, h1, h3], ?_⟩
    intro x y z
    rw [List.foldl_cons, h2, h4]
    simp only [List.mem_cons, exists_eq_or_imp]
    constructor
    · rintro ((h | ⟨hx, h⟩) | h)
      · exact Or.inl h
      · exact Or.inr (Or.inl ⟨hx.symm, h⟩)
      · exact Or.inr (Or.inr h)
    · rintro (h | (⟨hx, h⟩ | h))
      · exact Or.inl (Or.inl h)
      · exact Or.inl (Or.inr ⟨hx.symm, h⟩)
      · exact Or.inr h

/-- The copy of a graph with a sorted registry has the same registry and stores the same
edges. -/
theorem copy_spec (g : graph N E) (hs : g.nodes_.Pairwise (· < ·)) :
    g.copy.nodes_ = g.nodes_ ∧ ∀ a b w, g.copy.stored a b w ↔ g.stored a b w := by
  have hn := foldl_insert_node_ascending g.nodes (⟨[], []⟩ : graph N E) (by simpa using hs)
  have he := (foldl_insert_node_spec g.nodes (⟨[], []⟩ : graph N E)).1
  obtain ⟨h1, h2⟩ := copy_edges_spec g.edges_
    (g.nodes.foldl (fun g node => (g.insert_node node).2) (⟨[], []⟩ : graph N E))
  constructor
  · show (copy g).nodes_ = g.nodes_
    unfold copy
    simp only
    rw [h1, hn]
    simp [nodes]
  · intro a b w
    show (copy g).stored a b w ↔ g.stored a b w
    unfold copy
    simp only
    rw [h2]
    constructor
    · rintro (h | h)
      · obtain ⟨s, hsm, _⟩ := h
        rw [he] at hsm
        simp at hsm
      · exact h
    · intro h
      exact Or.inr h

/-- C27: for every reachable graph `g`, the graph built by the copy constructor, which copy
assignment swaps in, has `nodes()` equal to `g.nodes()`, stores exactly the edges `g` stores,
and answers `weights(a, b)` as `g` does for all `a`, `b`; the source is an argument that the
construction only reads. -/
theorem copy_of_reachable (g : graph N E) (h : g.reachable) :
    g.copy.nodes = g.nodes ∧
      (∀ a b w, g.copy.stored a b w ↔ g.stored a b w) ∧
      (∀ a b, g.copy.weights a b = g.weights a b) := by
  have hk := reachable_well_kept g h
  have hkc := copy_well_kept g
  obtain ⟨hn, hst⟩ := copy_spec g hk.1
  refine ⟨hn, hst, ?_⟩
  intro a b
  have hnode : ∀ v, g.copy.is_node v = g.is_node v := by
    intro v
    simp only [is_node, hn]
  by_cases ha : g.is_node a = true
  · by_cases hb : g.is_node b = true
    · obtain ⟨ws1, hw1, hp1, hm1⟩ := weights_spec g hk a b ha hb
      obtain ⟨ws2, hw2, hp2, hm2⟩ := weights_spec g.copy hkc a b (by rw [hnode]; exact ha)
        (by rw [hnode]; exact hb)
      rw [hw1, hw2]
      congr 1
      apply pairwise_lt_ext ws2 ws1 hp2 hp1
      intro w
      rw [hm1, hm2, hst]
    · simp [weights, hnode, hb]
  · simp [weights, hnode, ha]

/-! ### operator== -/

theorem value_type_eq_iff (a b : value_type N E) :
    (a.from_ = b.from_ ∧ a.to_ = b.to_ ∧ a.weight = b.weight) ↔ a = b := by
  obtain ⟨a1, a2, a3⟩ := a
  obtain ⟨b1, b2, b3⟩ := b
  simp

/-- The loop of `operator==` from two valid positions with equally many edges left, given at
least one iteration more than that number: it answers whether the two remaining sequences
are equal. -/
theorem equal_loop_spec (g other : graph N E) (hg : g.no_empty_level)
    (ho : other.no_empty_level) (n : Nat) :
    ∀ (it1 it2 : iterator) (flag : Bool), g.valid it1 → other.valid it2 →
      (g.rest_of it1).length = (other.rest_of it2).length →
      (g.rest_of it1).length + 1 ≤ n →
      g.equal_loop other n it1 it2 flag = .ok (decide (g.rest_of it1 = other.rest_of it2)) := by
  induction n with
  | zero => intro _ _ _ _ _ _ h; omega
  | succ n ih =>
    intro it1 it2 flag hv1 hv2 hlen hn
    obtain ⟨v1, t1, nx1, hr1, hd1, hi1, hc1⟩ := step_valid g hg it1 hv1
    obtain ⟨v2, t2, nx2, hr2, hd2, hi2, hc2⟩ := step_valid other ho it2 hv2
    have hne1 := valid_ne_end g it1 hv1
    rw [hr1, hr2] at hlen ⊢
    rw [hr1] at hn
    simp only [List.length_cons, Nat.add_right_cancel_iff] at hlen
    simp only [List.length_cons] at hn
    by_cases hmatch : v1.from_ = v2.from_ ∧ v1.to_ = v2.to_ ∧ v1.weight = v2.weight
    · have hveq : v1 = v2 := (value_type_eq_iff v1 v2).1 hmatch
      have hloop : g.equal_loop other (n + 1) it1 it2 flag =
          g.equal_loop other n nx1 nx2 true := by
        simp [equal_loop, hne1, hd1, hd2, hmatch, hi1, hi2]
      rw [hloop]
      rcases hc1 with ⟨hvn1, hrn1⟩ | ⟨hend1, ht1⟩
      · rcases hc2 with ⟨hvn2, hrn2⟩ | ⟨_, ht2⟩
        · rw [ih nx1 nx2 true hvn1 hvn2 (by rw [hrn1, hrn2]; exact hlen)
            (by rw [hrn1]; omega), hrn1, hrn2]
          congr 1
          simp [hveq]
        · obtain ⟨_, _, _, h, _⟩ := step_valid g hg nx1 hvn1
          rw [hrn1] at h
          rw [h, ht2] at hlen
          simp at hlen
      · rcases hc2 with ⟨hvn2, hrn2⟩ | ⟨hend2, ht2⟩
        · obtain ⟨_, _, _, h, _⟩ := step_valid other ho nx2 hvn2
          rw [hrn2] at h
          rw [h, ht1] at hlen
          simp at hlen
        · subst ht1 ht2
          cases n with
          | zero => simp at hn
          | succ n =>
            rw [hend1, hend2]
            simp [equal_loop, hveq]
    · have hvne : v1 ≠ v2 := fun h => hmatch ((value_type_eq_iff v1 v2).2 h)
      simp [equal_loop, hne1, hd1, hd2, hmatch, hvne]

/-- C29: for graphs `g` and `h` with no empty level that store the same positive number of
edges, `g == h` returns a value, true exactly when `g.nodes()` equals `h.nodes()` and the two
ascending edge sequences are equal; in particular such a graph compares equal to any graph
with the same members, as two graphs built by the same calls are. -/
theorem operator_eq_of_equal_lengths (g other : graph N E) (hg : g.no_empty_level)
    (ho : other.no_empty_level) (hn : 1 ≤ g.edge_count)
    (hlen : g.edge_count = other.edge_count) :
    g.operator_eq other = .ok (decide (g.nodes = other.nodes ∧ g.edge_list = other.edge_list)) ∧
      (g.operator_eq other = .ok true ↔
        (g.nodes = other.nodes ∧ g.edge_list = other.edge_list)) ∧
      (g = other → g.operator_eq other = .ok true) := by
  have hmain : g.operator_eq other =
      .ok (decide (g.nodes = other.nodes ∧ g.edge_list = other.edge_list)) := by
    by_cases hnodes : g.nodes = other.nodes
    · obtain ⟨hb1, hv1, hr1⟩ := begin_valid g hg (edges_ne_nil_of_count g hn)
      obtain ⟨hb2, hv2, hr2⟩ := begin_valid other ho
        (edges_ne_nil_of_count other (by rw [← hlen]; exact hn))
      have hl1 := length_edge_list g
      have hl2 := length_edge_list other
      have hloop := equal_loop_spec g other hg ho (g.edge_count + other.edge_count + 1)
        _ _ false hv1 hv2 (by rw [hr1, hr2, hl1, hl2, hlen]) (by rw [hr1, hl1]; omega)
      rw [hr1, hr2] at hloop
      simp [operator_eq, hnodes, hb1, hb2, hloop]
    · simp [operator_eq, hnodes]
  refine ⟨hmain, ?_, ?_⟩
  · rw [hmain]
    simp
  · intro heq
    rw [hmain, heq]
    simp

/-! ### erase_edge of the only edge leaving a node -/

theorem map_find_modify {K V : Type} [LinearOrder K] (k : K) (f : V → V) (m : List (K × V)) :
    map_find k (map_modify k f m) = (map_find k m).map f := by
  induction m with
  | nil => rfl
  | cons q t ih =>
    simp only [map_modify, List.map_cons] at ih ⊢
    by_cases hq : q.1 = k
    · simp [map_find, hq]
    · simp [map_find, hq, ih]

theorem length_eq_one_of_all_eq {K : Type} [LinearOrder K] (w : K) (ws : List K)
    (hp : ws.Pairwise (· < ·)) (hw : w ∈ ws) (hall : ∀ x ∈ ws, x = w) : ws.length = 1 := by
  cases ws with
  | nil => simp at hw
  | cons a t =>
    have ha : a = w := hall a (List.mem_cons_self _ _)
    have ht : t = [] := by
      apply List.eq_nil_iff_forall_not_mem.2
      intro b hb
      have hbw : b = w := hall b (List.mem_cons_of_mem _ hb)
      have hlt : a < b := (List.pairwise_cons.1 hp).1 b hb
      rw [ha, hbw] at hlt
      exact lt_irrefl w hlt
    rw [ht]
    rfl

/-- C31 (amended): in a graph with sorted containers and no empty level, where `src` and `dst`
are nodes and `(src, dst, w)` is stored and is the only edge leaving `src`, the call
`erase_edge(src, dst, w)` returns true, and afterwards `src` is no longer a node, `nodes()`
being the previous sequence without `src`.  So it goes in the test: erasing the three edges
of the graph on the nodes 1, 2, 4 returns true each time and leaves a graph that is not
empty, which `erase_node(4)` makes empty. -/
theorem erase_edge_of_only_outgoing_edge (g : graph N E) (hs : g.sorted)
    (hne : g.no_empty_level) (src dst : N) (w : E) (hsrc : g.is_node src = true)
    (hdst : g.is_node dst = true) (hst : g.stored src dst w)
    (honly : ∀ b x, g.stored src b x → b = dst ∧ x = w) :
    ((g.erase_edge src dst w).1 = .ok true ∧
      (g.erase_edge src dst w).2.is_node src = false ∧
      (g.erase_edge src dst w).2.nodes = g.nodes.filter (fun n => decide (n ≠ src))) ∧
    ((erase_test_graph.erase_edge 1 4 2).1 = .ok true ∧
      ((erase_test_graph.erase_edge 1 4 2).2.erase_edge 1 4 3).1 = .ok true ∧
      (((erase_test_graph.erase_edge 1 4 2).2.erase_edge 1 4 3).2.erase_edge 2 4 2).1
        = .ok true ∧
      (((erase_test_graph.erase_edge 1 4 2).2.erase_edge 1 4 3).2.erase_edge 2 4 2).2.empty
        = false ∧
      ((((erase_test_graph.erase_edge 1 4 2).2.erase_edge 1 4 3).2.erase_edge 2 4 2).2.erase_node
        4).1 = true ∧
      ((((erase_test_graph.erase_edge 1 4 2).2.erase_edge 1 4 3).2.erase_edge 2 4 2).2.erase_node
        4).2.empty = true) := by
  refine ⟨?_, by decide⟩
  obtain ⟨dm, ws, h1, h2, hw⟩ := lookup_of_stored g hs src dst w hst
  have hdm_mem : (src, dm) ∈ g.edges_ := map_find_mem _ _ _ h1
  have hws_mem : (dst, ws) ∈ dm := map_find_mem _ _ _ h2
  have hconn : g.is_connected src dst = .ok true := by
    rw [is_connected_of_lookup g src dst hsrc hdst dm h1]
    simp [map_contains, h2]
  have hnil : g.edges_ ≠ [] := by
    intro h; rw [h] at h1; simp [map_find] at h1
  obtain ⟨c, hfind, hcase⟩ := find_spec g hne hnil src dst w
  have hcne : c ≠ g.end_ := by
    rcases hcase with ⟨_, hv, _⟩ | ⟨h, _⟩
    · exact valid_ne_end g c hv
    · exact absurd hst h
  have hat : map_at dst [] (map_at src [] g.edges_) = ws := by
    simp [map_at, h1, h2]
  have hws_sorted : ws.Pairwise (· < ·) := (hs.2.2 _ hdm_mem).2 _ hws_mem
  have hall : ∀ x ∈ ws, x = w := fun x hx =>
    (honly dst x (stored_of_lookup g src dst x dm ws h1 h2 hx)).2
  have hone : ws.length = 1 := length_eq_one_of_all_eq w ws hws_sorted hw hall
  have hnot : ¬ ws.length > 1 := by omega
  -- the destination map of `src` after the two erasures
  have hfun : (map_erase dst ∘ map_index dst (set_erase w) ([] : List E)) =
      (map_erase dst : List (N × List E) → List (N × List E)) := by
    funext m
    exact map_erase_index dst _ _ m
  have hcont : map_contains src g.edges_ = true := by simp [map_contains, h1]
  have hE2 : map_index src (map_erase dst) []
      (map_index src (map_index dst (set_erase w) []) [] g.edges_) =
        map_modify src (map_erase dst) g.edges_ := by
    rw [map_index_index, hfun]
    simp [map_index, hcont]
  have hdm_all : ∀ p ∈ dm, p.1 = dst := by
    intro p hp
    obtain ⟨x, hx⟩ := List.exists_mem_of_ne_nil _ ((hne _ hdm_mem).2 p hp)
    exact (honly p.1 x ⟨(src, dm), hdm_mem, rfl, p, hp, rfl, hx⟩).1
  have hgone : map_erase dst dm = [] := by
    unfold map_erase
    rw [List.filter_eq_nil_iff]
    intro p hp
    simp [hdm_all p hp]
  have hempty : (map_at src ([] : List (N × List E)) (map_index src (map_erase dst) []
      (map_index src (map_index dst (set_erase w) []) [] g.edges_))).length = 0 := by
    rw [hE2]
    simp [map_at, map_find_modify, h1, hgone]
  have heq : g.erase_edge src dst w = (.ok true,
      ((⟨g.nodes_, map_index src (map_erase dst) []
        (map_index src (map_index dst (set_erase w) []) [] g.edges_)⟩ :
          graph N E).erase_node src).2) := by
    simp [erase_edge, hsrc, hdst, hconn, hfind, hcne, hat, hone, hempty]
  have hnodes : (g.erase_edge src dst w).2.nodes_ = set_erase src g.nodes_ := by
    rw [heq, erase_node_eq _ src (by simpa [is_node] using hsrc)]
  refine ⟨by rw [heq], ?_, ?_⟩
  · rw [← Bool.not_eq_true, is_node_iff]
    simp only [nodes, hnodes, mem_set_erase]
    exact fun h => h.2 rfl
  · simp only [nodes, hnodes, set_erase]

/-! ### What replace_node does to the adjacency structure -/

theorem map_erase_head {K V : Type} [LinearOrder K] (p : K × V) (t : List (K × V))
    (hs : ((p :: t).map Prod.fst).Pairwise (· < ·)) : map_erase p.1 (p :: t) = t := by
  simp only [List.map_cons, List.pairwise_cons] at hs
  have hall : ∀ q ∈ t, decide (q.1 ≠ p.1) = true := by
    intro q hq
    simpa using ne_of_gt (hs.1 q.1 (List.mem_map.2 ⟨q, hq, rfl⟩))
  simp only [map_erase, List.filter_cons, ne_eq, not_true_eq_false, decide_False,
    Bool.false_eq_true, if_false]
  exact List.filter_eq_self.2 hall

/-- In a graph with sorted containers where `old` is a node, `new` is not a node, `new` is
not a source key of the adjacency structure either, and the first source entry does not have
`old` among its destination keys, `replace_node(old, new)` returns true and changes the
adjacency structure in one way only: when `old` is the key of its first, that is least, source
entry, that entry is linked again under the key `new` with its destination map as it was, and
all other entries stay as they were; in every other case the adjacency structure is left
exactly as it was, whether or not `old` is a later source key.  No destination key is
relabeled: in the first case the edges stored afterwards are the previous edges leaving `old`,
now leaving `new`, and the previous edges not leaving `old`, each with its previous
destination. -/
theorem replace_node_rekeys_least_source_only (g : graph N E) (hs : g.sorted)
    (old_data new_data : N) (hold : g.is_node old_data = true)
    (hnew : g.is_node new_data = false) (hfree : map_contains new_data g.edges_ = false)
    (hclean : ∀ s tail, g.edges_ = s :: tail → map_contains old_data s.2 = false) :
    (g.replace_node old_data new_data).1 = .ok true ∧
      (g.edges_ = [] → (g.replace_node old_data new_data).2.edges_ = []) ∧
      (∀ s tail, g.edges_ = s :: tail → s.1 = old_data →
        (g.replace_node old_data new_data).2.edges_ =
            sorted_insert Prod.fst (new_data, s.2) tail ∧
          ∀ a b x, (g.replace_node old_data new_data).2.stored a b x ↔
            ((a = new_data ∧ g.stored old_data b x) ∨ (a ≠ old_data ∧ g.stored a b x))) ∧
      (∀ s tail, g.edges_ = s :: tail → s.1 ≠ old_data →
        (g.replace_node old_data new_data).2.edges_ = g.edges_) := by
  refine ⟨(replace_node_registry g old_data new_data hold hnew hclean).1, ?_, ?_, ?_⟩
  · intro h
    simp [replace_node, hnew, hold, h]
  · intro s tail h hs1
    have hkeys : ((s :: tail).map Prod.fst).Pairwise (· < ·) := by
      rw [← h]; exact hs.2.1
    have herase : map_erase old_data (s :: tail) = tail := by
      rw [← hs1]; exact map_erase_head s tail hkeys
    have hat : map_at old_data ([] : List (N × List E)) (s :: tail) = s.2 := by
      simp [map_at, map_find, hs1]
    have hfree_tail : ¬ map_contains new_data tail = true := by
      intro hc
      obtain ⟨p, hp, hpk⟩ := (map_contains_iff new_data tail).1 hc
      have : map_contains new_data g.edges_ = true := by
        rw [h]
        exact (map_contains_iff new_data (s :: tail)).2 ⟨p, List.mem_cons_of_mem _ hp, hpk⟩
      rw [hfree] at this
      exact Bool.noConfusion this
    have hedges : (g.replace_node old_data new_data).2.edges_ =
        sorted_insert Prod.fst (new_data, s.2) tail := by
      rw [replace_node_graph g old_data new_data hold hnew]
      simp only [h, hs1, herase, hat, map_insert_node, hfree_tail, Bool.false_eq_true,
        if_false, if_true]
    refine ⟨hedges, ?_⟩
    intro a b x
    have hlt : ∀ q ∈ tail, old_data < q.1 := by
      intro q hq
      simp only [List.map_cons, List.pairwise_cons] at hkeys
      rw [← hs1]
      exact hkeys.1 q.1 (List.mem_map.2 ⟨q, hq, rfl⟩)
    simp only [stored, hedges, mem_sorted_insert, h, List.mem_cons]
    constructor
    · rintro ⟨p, (rfl | hp), hpa, d, hd, hdb, hx⟩
      · exact Or.inl ⟨hpa.symm, s, Or.inl rfl, hs1, d, hd, hdb, hx⟩
      · refine Or.inr ⟨?_, p, Or.inr hp, hpa, d, hd, hdb, hx⟩
        rw [← hpa]
        exact ne_of_gt (hlt p hp)
    · rintro (⟨ha, p, (rfl | hp), hpo, d, hd, hdb, hx⟩ | ⟨ha, p, (rfl | hp), hpa, d, hd, hdb, hx⟩)
      · exact ⟨(new_data, p.2), Or.inl rfl, ha.symm, d, hd, hdb, hx⟩
      · exact absurd hpo (ne_of_gt (hlt p hp))
      · exact absurd (hpa.symm.trans hs1) ha
      · exact ⟨p, Or.inr hp, hpa, d, hd, hdb, hx⟩
  · intro s tail h hs1
    rw [replace_node_graph g old_data new_data hold hnew]
    simp [h, hs1]

end graph

/-- C1 at the graph of the test suite: three edges, `end()` after three increments. -/
theorem traversal_visits_every_edge_ascending_witness :
    test_graph.sorted ∧ test_graph.no_empty_level ∧ 1 ≤ test_graph.edge_count ∧
      ∃ first, test_graph.begin = .ok first ∧
        test_graph.advance first test_graph.edge_count = .ok test_graph.end_ :=
  ⟨by decide, by decide, by decide,
    (graph.traversal_visits_every_edge_ascending test_graph (by decide) (by decide)
      (by decide)).imp fun _ h => ⟨h.1, h.2.2.1⟩⟩

/-- C3 at the graph of the test suite: `insert_edge(1, 4, 5)` adds a second weight from 1
to 4. -/
theorem insert_edge_on_nodes_witness :
    test_graph.is_node 1 = true ∧ test_graph.is_node 4 = true ∧
      ¬ test_graph.stored 1 4 5 ∧ (test_graph.insert_edge 1 4 5).1 = .ok true :=
  ⟨by decide, by decide, by decide,
    ((graph.insert_edge_on_nodes test_graph 1 4 5 (by decide) (by decide)).2 (by decide)).1⟩

/-- C5 at the graph of the test suite: `erase_node(1)` leaves the nodes 2, 3, 4. -/
theorem erase_node_removes_incident_edges_witness :
    test_graph.keys_registered ∧ test_graph.is_node 1 = true ∧
      (test_graph.erase_node 1).2.nodes = test_graph.nodes.filter (fun n => decide (n ≠ 1)) :=
  ⟨by decide, by decide,
    ((graph.erase_node_removes_incident_edges test_graph (by decide) 1).2 (by decide)).2.1⟩

/-- C6 (failing input): the graph with nodes 1, 2 and the edge (1,2,5) has no empty level;
`erase_node(2)` returns true and leaves the source 1 in `edges_` with an empty destination
map, on which `begin()` is undefined. -/
theorem erase_node_leaves_source_without_destinations :
    single_edge_graph.no_empty_level ∧
      single_edge_graph.erase_node 2 = (true, ⟨[1], [(1, [])]⟩) ∧
      ¬ (single_edge_graph.erase_node 2).2.no_empty_level ∧
      (single_edge_graph.erase_node 2).2.begin = .error .undefined := by
  decide

/-- C7 (failing input): from the empty graph, `insert_node(1)`, `insert_node(2)`,
`insert_edge(1,1,0)`, `insert_edge(2,2,0)` reach a graph whose keys are all registered;
`replace_node(2, 3)` then returns true, renames the node only, and leaves 2 as a source key
and as a destination key although `is_node(2)` is false. -/
theorem replace_node_leaves_unregistered_keys :
    two_loops_graph.keys_registered ∧
      two_loops_graph.replace_node 2 3 =
        (.ok true, ⟨[1, 3], [(1, [(1, [0])]), (2, [(2, [0])])]⟩) ∧
      (two_loops_graph.replace_node 2 3).2.is_node 2 = false ∧
      ¬ (two_loops_graph.replace_node 2 3).2.keys_registered := by
  decide

/-- C9 (failing input): in the graph with nodes 1, 2 and edges (1,2,0), (2,1,0), the call
`erase_edge(1, 2, 0)` returns true, but 1 is no longer a node afterwards and the other edge
(2,1,0) is gone as well. -/
theorem erase_edge_of_last_outgoing_edge_erases_node :
    two_cycle_graph.stored 1 2 0 ∧ two_cycle_graph.stored 2 1 0 ∧
      two_cycle_graph.nodes = [1, 2] ∧
      two_cycle_graph.erase_edge 1 2 0 = (.ok true, ⟨[2], [(2, [])]⟩) ∧
      (two_cycle_graph.erase_edge 1 2 0).2.nodes = [2] ∧
      ¬ (two_cycle_graph.erase_edge 1 2 0).2.stored 2 1 0 := by
  decide

/-- C10 (failing input): in the graph with nodes 1, 2 and edges (1,1,0), (2,1,0), where 2 is a
node and 3 is not, `replace_node(2, 3)` returns true and renames the node, but the edge
(2,1,0) is still stored under the old label and (3,1,0) is not stored. -/
theorem replace_node_keeps_old_label_on_edges :
    fan_in_graph.is_node 2 = true ∧ fan_in_graph.is_node 3 = false ∧
      fan_in_graph.stored 2 1 0 ∧
      (fan_in_graph.replace_node 2 3).1 = .ok true ∧
      (fan_in_graph.replace_node 2 3).2.nodes = [1, 3] ∧
      (fan_in_graph.replace_node 2 3).2.stored 2 1 0 ∧
      ¬ (fan_in_graph.replace_node 2 3).2.stored 3 1 0 := by
  decide

/-- C8 at the graph of the test suite: `erase_edge(2, 4, 2)` returns true. -/
theorem erase_edge_by_value_witness :
    test_graph.sorted ∧ test_graph.no_empty_level ∧
      (test_graph.erase_edge 2 4 2).1 = .ok (decide (test_graph.stored 2 4 2)) :=
  ⟨by decide, by decide,
    ((graph.erase_edge_by_value test_graph (by decide) (by decide) 2 4 2).2.2 (by decide)
      (by decide)).1⟩

/-- C12 at the graph of the test suite: `replace_node(1, 2)` returns false. -/
theorem replace_node_into_existing_node_witness :
    test_graph.is_node 1 = true ∧ test_graph.is_node 2 = true ∧
      test_graph.replace_node 1 2 = (.ok false, test_graph) :=
  ⟨by decide, by decide,
    (graph.replace_node_into_existing_node test_graph 1 2 (by decide) (by decide)).1⟩

/-- C14 (failing input): in the graph with nodes 1, 2 and the edge (1,2,5), where both 1 and
2 are nodes, `merge_replace_node(1, 2)` ends in the `std::runtime_error`; with 3 and 4, neither
of which is a node, `merge_replace_node(3, 4)` completes without error. -/
theorem merge_replace_node_guard_is_inverted :
    single_edge_graph.is_node 1 = true ∧ single_edge_graph.is_node 2 = true ∧
      (single_edge_graph.merge_replace_node 1 2).1 = .error .runtime_error ∧
      single_edge_graph.is_node 3 = false ∧ single_edge_graph.is_node 4 = false ∧
      (single_edge_graph.merge_replace_node 3 4).1 = .ok () := by
  decide

/-- C15 (failing input): in the graph with nodes 1, 2 and edges (1,2,0), (2,1,0), the call
`merge_replace_node(1, 2)` throws and leaves the graph as it was: 1 is still a node, the edges
(1,2,0) and (2,1,0) are still stored, and the merged edge (2,2,0) is not. -/
theorem merge_replace_node_merges_nothing :
    two_cycle_graph.is_node 1 = true ∧ two_cycle_graph.is_node 2 = true ∧
      two_cycle_graph.merge_replace_node 1 2 = (.error .runtime_error, two_cycle_graph) ∧
      (two_cycle_graph.merge_replace_node 1 2).2.is_node 1 = true ∧
      (two_cycle_graph.merge_replace_node 1 2).2.stored 1 2 0 ∧
      (two_cycle_graph.merge_replace_node 1 2).2.stored 2 1 0 ∧
      ¬ (two_cycle_graph.merge_replace_node 1 2).2.stored 2 2 0 := by
  decide

/-- C16 (failing input): the graph with the single node 1 and no edge, compared with itself,
does not compare equal: `begin()` faults on the empty `edges_`.  Were both `begin()` equal to
`end()`, the loop body would never run and the result would be the initial `flag`, false. -/
theorem operator_eq_of_edgeless_graph_with_itself :
    (⟨[1], []⟩ : graph Int Int).operator_eq ⟨[1], []⟩ = .error .undefined ∧
      graph.equal_loop (⟨[1], []⟩ : graph Int Int) ⟨[1], []⟩ 1
        (⟨[1], []⟩ : graph Int Int).end_ (⟨[1], []⟩ : graph Int Int).end_ false = .ok false := by
  decide

/-- C18 (failing input): in the graph with nodes 1, 2 and edges (1,2,0), (2,1,0), which has no
empty level, `begin()` denotes (1,2,0) and its successor denotes (2,1,0); `erase_edge(begin())`
erases (2,1,0) as well, so the iterator it returns, the successor, denotes nothing. -/
theorem erase_edge_iter_unlinks_the_following_edge :
    two_cycle_graph.no_empty_level ∧
      two_cycle_graph.begin = .ok ⟨0, some 0, some 0⟩ ∧
      two_cycle_graph.deref ⟨0, some 0, some 0⟩ = .ok ⟨1, 2, 0⟩ ∧
      two_cycle_graph.inc ⟨0, some 0, some 0⟩ = .ok ⟨1, some 0, some 0⟩ ∧
      two_cycle_graph.deref ⟨1, some 0, some 0⟩ = .ok ⟨2, 1, 0⟩ ∧
      two_cycle_graph.erase_edge_iter ⟨0, some 0, some 0⟩ =
        (.error .undefined, ⟨[2], [(2, [])]⟩) ∧
      ¬ (two_cycle_graph.erase_edge_iter ⟨0, some 0, some 0⟩).2.stored 2 1 0 := by
  decide

/-- C19 (failing input): in the graph with nodes 1, 2 and edges (1,2,0), (2,1,0), with `first`
on (1,2,0) and `last` on (2,1,0), `erase_edge(first, last)` erases the edge (2,1,0), which lies
outside the range, and the iterator it returns denotes nothing. -/
theorem erase_edge_range_erases_the_edge_at_last :
    two_cycle_graph.no_empty_level ∧
      two_cycle_graph.deref ⟨0, some 0, some 0⟩ = .ok ⟨1, 2, 0⟩ ∧
      two_cycle_graph.deref ⟨1, some 0, some 0⟩ = .ok ⟨2, 1, 0⟩ ∧
      two_cycle_graph.erase_edge_range ⟨0, some 0, some 0⟩ ⟨1, some 0, some 0⟩ =
        (.error .undefined, ⟨[2], [(2, [])]⟩) ∧
      ¬ (two_cycle_graph.erase_edge_range ⟨0, some 0, some 0⟩ ⟨1, some 0, some 0⟩).2.stored
        2 1 0 := by
  decide

/-- C11 (failing input): in the graph of the test suite, where 1 is a node and 7 is not,
`replace_node(1, 7)`, the call the test suite makes, does not return true.  The first source
entry is that of source 1 and has 1 among its destination keys, so the inner loop unlinks the
element its iterator stands on and then steps that iterator: the call is undefined. -/
theorem replace_node_steps_unlinked_destination :
    test_graph.is_node 1 = true ∧ test_graph.is_node 7 = false ∧
      test_graph.edges_ = [(1, [(1, [2]), (4, [3])]), (2, [(4, [2])])] ∧
      graph.replace_inner_loop 1 [(1, [(2 : Int)]), (4, [3])] = .error .undefined ∧
      (test_graph.replace_node 1 7).1 = .error .undefined ∧
      (test_graph.replace_node 1 7).1 ≠ .ok true := by
  decide

/-- The renaming in the registry at the graph of the test suite: 2 is not a destination key of
the first source entry, and `replace_node(2, 7)` returns true and keeps four nodes. -/
theorem replace_node_renames_in_registry_witness :
    test_graph.nodes.Pairwise (· < ·) ∧ test_graph.is_node 2 = true ∧
      test_graph.is_node 7 = false ∧
      (test_graph.replace_node 2 7).1 = .ok true ∧
      (test_graph.replace_node 2 7).2.nodes.length = test_graph.nodes.length :=
  have h := graph.replace_node_renames_in_registry test_graph (by decide) 2 7 (by decide)
    (by decide) (fun s tail hst => by
      have he : test_graph.edges_ = (1, [(1, [2]), (4, [3])]) :: [(2, [(4, [2])])] := by
        decide
      rw [he] at hst
      cases hst
      decide)
  ⟨by decide, by decide, by decide, h.1, h.2.2.2.2.2⟩

/-- C20 at the graph of the test suite, which four `insert_node` and three `insert_edge`
calls build from the empty graph. -/
theorem reachable_nodes_strictly_ascending_witness :
    test_graph.reachable ∧ test_graph.nodes.Pairwise (· < ·) :=
  have hr : test_graph.reachable :=
    .insert_edge _ 1 1 2 (.insert_edge _ 2 4 2 (.insert_edge _ 1 4 3
      (.insert_node _ 2 (.insert_node _ 4 (.insert_node _ 3 (.insert_node _ 1 .default))))))
  ⟨hr, (graph.reachable_nodes_strictly_ascending test_graph hr).1⟩

/-- C26 (failing input): the empty graph is rendered as one closing line, not as the empty
text; two nodes without edges get two opening lines and a single closing line; and in the
graph with nodes 1, 2 and the loop (2,2,0) the opening line of node 1 has no closing line
of its own while node 2 is followed by two. -/
theorem operator_out_closing_lines :
    empty_graph.operator_out = .ok [.closing] ∧
      (graph.of_list [1, 2] : graph Int Int).operator_out =
        .ok [.opening 1, .opening 2, .closing] ∧
      ((graph.of_list [1, 2] : graph Int Int).insert_edge 2 2 0).2.operator_out =
        .ok [.opening 1, .opening 2, .entry 2 0, .closing, .closing] := by
  decide

/-- C28 (failing input): the graph of the test suite and the same graph with the further edge
(2,4,9) have the same nodes and edge sequences of lengths 3 and 4, the first a proper prefix
of the second; comparing them runs into the end of the shorter one.  So does comparing the
graph of the test suite with the graph of its four nodes and no edge. -/
theorem operator_eq_of_unequal_lengths :
    test_graph.nodes = (test_graph.insert_edge 2 4 9).2.nodes ∧
      test_graph.edge_list.length = 3 ∧
      (test_graph.insert_edge 2 4 9).2.edge_list.length = 4 ∧
      test_graph.operator_eq (test_graph.insert_edge 2 4 9).2 = .error .undefined ∧
      (test_graph.insert_edge 2 4 9).2.operator_eq test_graph = .error .undefined ∧
      test_graph.nodes = (graph.of_list [1, 3, 4, 2] : graph Int Int).nodes ∧
      test_graph.operator_eq (graph.of_list [1, 3, 4, 2]) = .error .undefined := by
  decide

/-- C30 (failing input): on the empty graph, on a graph of two isolated nodes, and on the
graph left when the only edge of a graph has been erased, `edges_` is empty and `begin()`
does not return `end()`: it reads `srcmap->second` through the past-the-end position. -/
theorem begin_without_edges_is_undefined :
    empty_graph.edges_ = [] ∧ empty_graph.begin = .error .undefined ∧
      (graph.of_list [1, 2] : graph Int Int).edges_ = [] ∧
      (graph.of_list [1, 2] : graph Int Int).begin = .error .undefined ∧
      (single_edge_graph.erase_edge 1 2 5).2.edges_ = [] ∧
      (single_edge_graph.erase_edge 1 2 5).2.begin = .error .undefined := by
  decide

/-- The graph of the test suite is built from the empty graph by four `insert_node` and three
`insert_edge` calls. -/
theorem test_graph_reachable : test_graph.reachable :=
  .insert_edge _ 1 1 2 (.insert_edge _ 2 4 2 (.insert_edge _ 1 4 3
    (.insert_node _ 2 (.insert_node _ 4 (.insert_node _ 3 (.insert_node _ 1 .default))))))

/-- C21 at the graph of the test suite: `weights(1, 4)` returns a value. -/
theorem weights_of_reachable_witness :
    test_graph.reachable ∧ test_graph.is_node 1 = true ∧ test_graph.is_node 4 = true ∧
      ∃ ws, test_graph.weights 1 4 = .ok ws ∧ ws.Pairwise (· < ·) :=
  ⟨test_graph_reachable, by decide, by decide,
    ((graph.weights_of_reachable test_graph test_graph_reachable 1 4).2 (by decide)
      (by decide)).imp fun _ h => ⟨h.1, h.2.1⟩⟩

/-- C22 at the graph of the test suite: `connections(1)` returns a value. -/
theorem connections_of_reachable_witness :
    test_graph.reachable ∧ test_graph.is_node 1 = true ∧
      ∃ ds, test_graph.connections 1 = .ok ds ∧ ds.Pairwise (· < ·) :=
  ⟨test_graph_reachable, by decide,
    ((graph.connections_of_reachable test_graph test_graph_reachable 1).2 (by decide)).imp
      fun _ h => ⟨h.1, h.2.1⟩⟩

/-- C23 at the graph of the test suite: `is_connected(2, 1)` returns a value. -/
theorem is_connected_of_reachable_witness :
    test_graph.reachable ∧ test_graph.is_node 2 = true ∧ test_graph.is_node 1 = true ∧
      ∃ b, test_graph.is_connected 2 1 = .ok b ∧ (b = true ↔ ∃ w, test_graph.stored 2 1 w) :=
  ⟨test_graph_reachable, by decide, by decide,
    ((graph.is_connected_of_reachable test_graph test_graph_reachable 2 1).2 (by decide)
      (by decide)).imp fun _ h => ⟨h.1, h.2.1⟩⟩

/-- C27 at the graph of the test suite: its copy has the same nodes. -/
theorem copy_of_reachable_witness :
    test_graph.reachable ∧ test_graph.copy.nodes = test_graph.nodes :=
  ⟨test_graph_reachable, (graph.copy_of_reachable test_graph test_graph_reachable).1⟩

/-- C29 at the graph of the test suite and its copy, both with three edges. -/
theorem operator_eq_of_equal_lengths_witness :
    test_graph.no_empty_level ∧ test_graph.copy.no_empty_level ∧ 1 ≤ test_graph.edge_count ∧
      test_graph.edge_count = test_graph.copy.edge_count ∧
      test_graph.operator_eq test_graph.copy =
        .ok (decide (test_graph.nodes = test_graph.copy.nodes ∧
          test_graph.edge_list = test_graph.copy.edge_list)) :=
  ⟨by decide, by decide, by decide, by decide,
    (graph.operator_eq_of_equal_lengths test_graph test_graph.copy (by decide) (by decide)
      (by decide) (by decide)).1⟩

/-- C31 (counterexample): in the graph with nodes 1, 3, 4 and edges (1,3,0), (2,2,0), the edge
(2,2,0) is stored and is the only edge leaving 2, yet `erase_edge(2, 2, 0)` throws, 2 not being
a node; and in the graph with nodes 1, 2 and `edges_` holding the source 1 without destination
and the edge (2,1,0), that edge is the only one leaving the node 2, yet `erase_edge(2, 1, 0)`
does not return: `find` runs into the empty destination map of source 1. -/
theorem erase_edge_of_only_outgoing_edge_can_fail :
    (stale_source_graph.stored 2 2 0 ∧
      (∀ s ∈ stale_source_graph.edges_, s.1 = 2 → s.2 = [(2, [0])]) ∧
      stale_source_graph.erase_edge 2 2 0 = (.error .runtime_error, stale_source_graph)) ∧
    (empty_source_graph.stored 2 1 0 ∧ empty_source_graph.is_node 2 = true ∧
      empty_source_graph.is_node 1 = true ∧
      (∀ s ∈ empty_source_graph.edges_, s.1 = 2 → s.2 = [(1, [0])]) ∧
      empty_source_graph.erase_edge 2 1 0 = (.error .undefined, empty_source_graph)) := by
  decide

/-- C31 (amended) at the graph of the test of `erase_edge` after its first two erasures, where
(2,4,2) is the only edge leaving 2. -/
theorem erase_edge_of_only_outgoing_edge_witness :
    ((erase_test_graph.erase_edge 1 4 2).2.erase_edge 1 4 3).2.sorted ∧
      ((erase_test_graph.erase_edge 1 4 2).2.erase_edge 1 4 3).2.no_empty_level ∧
      ((erase_test_graph.erase_edge 1 4 2).2.erase_edge 1 4 3).2.stored 2 4 2 ∧
      (((erase_test_graph.erase_edge 1 4 2).2.erase_edge 1 4 3).2.erase_edge 2 4 2).2.is_node 2
        = false :=
  have hg : ((erase_test_graph.erase_edge 1 4 2).2.erase_edge 1 4 3).2 =
      (⟨[2, 4], [(2, [(4, [2])])]⟩ : graph Int Int) := by decide
  ⟨by decide, by decide, by decide,
    (graph.erase_edge_of_only_outgoing_edge
      ((erase_test_graph.erase_edge 1 4 2).2.erase_edge 1 4 3).2 (by decide) (by decide) 2 4 2
      (by decide) (by decide) (by decide)
      (by
        rw [hg]
        rintro b x ⟨s, hs, hs1, d, hd, hd1, hx⟩
        simp only [List.mem_singleton] at hs
        subst hs
        simp only [List.mem_singleton] at hd
        subst hd
        simp only [List.mem_singleton] at hx
        exact ⟨hd1.symm, hx⟩)).1.2.1⟩

/-- C32 (failing input): in the graph with nodes 1, 3, 4 and edges (1,3,0), (2,2,0), where 1
is a node, 2 is not, 1 is the least source key and is not a destination key of its own entry,
`replace_node(1, 2)` returns true but the source entry of 1 is not linked under 2: the key 2 is
taken, the entry is dropped, and its edge is stored neither as (1,3,0) nor as (2,3,0). -/
theorem replace_node_drops_entry_when_new_is_a_source_key :
    stale_source_graph.is_node 1 = true ∧ stale_source_graph.is_node 2 = false ∧
      stale_source_graph.edges_ = [(1, [(3, [0])]), (2, [(2, [0])])] ∧
      stale_source_graph.replace_node 1 2 = (.ok true, ⟨[2, 3, 4], [(2, [(2, [0])])]⟩) ∧
      ¬ (stale_source_graph.replace_node 1 2).2.stored 2 3 0 ∧
      ¬ (stale_source_graph.replace_node 1 2).2.stored 1 3 0 := by
  decide

/-- The re-keying at the graph with nodes 1, 2 and the edge (1,2,5): 1 is the least source key
and not a destination key of its entry, 7 is no key at all, and `replace_node(1, 7)` returns
true and links the entry of source 1 again under 7. -/
theorem replace_node_rekeys_least_source_only_witness :
    single_edge_graph.sorted ∧ single_edge_graph.is_node 1 = true ∧
      single_edge_graph.is_node 7 = false ∧
      map_contains 7 single_edge_graph.edges_ = false ∧
      single_edge_graph.edges_ = (1, [(2, [5])]) :: [] ∧
      (single_edge_graph.replace_node 1 7).1 = .ok true ∧
      (single_edge_graph.replace_node 1 7).2.edges_ =
        sorted_insert Prod.fst (7, [(2, [5])]) [] :=
  have h := graph.replace_node_rekeys_least_source_only single_edge_graph (by decide) 1 7
    (by decide) (by decide) (by decide) (fun s tail hst => by
      have he : single_edge_graph.edges_ = (1, [(2, [5])]) :: [] := by decide
      rw [he] at hst
      cases hst
      decide)
  ⟨by decide, by decide, by decide, by decide, by decide, h.1,
    (h.2.2.1 (1, [(2, [5])]) [] (by decide) rfl).1⟩

end gdwg
